import Mathlib

/-!
Verification of the musil interpreter core (src/src/musil.h) against its
natural-language specification.

This file is a shallow embedding of the interpreter: the reader (lexer and
parser), the printer, structural equality, the environment machinery, the
evaluation loop and the list and array primitives are translated from the
C++ source into executable Lean definitions, and the specification claims
are settled as theorems about those definitions.

Modelling conventions:
* `double` is modelled by `Musil.R`, an exact (unnormalised) rational with
  integer numerator and denominator.  All numeric literals appearing in the
  claims are exactly representable, so no floating-point rounding occurs on
  the inputs under consideration; rounding of values that are not exactly
  representable in binary is not modelled.
* `std::shared_ptr` environments are mutable and shared, so environments
  live in an explicit store (`Musil.Store`); an environment value is an
  address into the store.  Lists are modelled as immutable Lean lists; the
  in-place list primitives return the updated list explicitly.
* `eval`, `read` and the environment walks carry an explicit fuel parameter
  (structural recursion on the fuel) so that every definition evaluates
  inside the kernel.  Fuel exhaustion is a distinguished outcome that never
  occurs on the concrete runs below.
* Exceptions (`error`, `std::vector::at`) are modelled with `Except`; the
  stack-trace text that `error` appends to its message is not modelled,
  only the base message is kept.
* I/O, the scheduler (`fn_schedule` / `Later`), `lshuffle`'s randomness and
  the host `exec` are outside the model; the corresponding ops are not
  registered in the modelled root environment.
-/

namespace Musil

/-- Exact rational number standing in for the C++ `Real` (= `double`).
`num / den`, not necessarily normalised; every operation below keeps the
denominator positive on the inputs arising in this development. -/
structure R where
  num : Int
  den : Int
deriving DecidableEq, Repr

/-- Embed an integer. -/
def R.ofInt (n : Int) : R := ⟨n, 1⟩

/-- Exact addition (models double `+` on exactly-representable values). -/
def R.add (a b : R) : R := ⟨a.num * b.den + b.num * a.den, a.den * b.den⟩

/-- Exact subtraction. -/
def R.sub (a b : R) : R := ⟨a.num * b.den - b.num * a.den, a.den * b.den⟩

/-- Exact multiplication. -/
def R.mul (a b : R) : R := ⟨a.num * b.num, a.den * b.den⟩

/-- Exact division; the sign is moved into the numerator so that the
denominator stays positive.  Division by zero yields denominator 0 (the
C++ code would produce an infinity there; no claim exercises it). -/
def R.div (a b : R) : R :=
  if 0 ≤ b.num then ⟨a.num * b.den, a.den * b.num⟩
  else ⟨-(a.num * b.den), -(a.den * b.num)⟩

/-- `fabs`. -/
def R.abs (a : R) : R := ⟨if a.num < 0 then -a.num else a.num, a.den⟩

/-- Strict order by cross multiplication (valid for positive denominators). -/
def R.lt (a b : R) : Bool := a.num * b.den < b.num * a.den

/-- Truthiness of a double: `if (x)` in C++ is `x != 0`. -/
def R.toBool (a : R) : Bool := a.num != 0

/-- The C cast `(int) x`: truncation toward zero (denominator positive). -/
def R.toInt (a : R) : Int := a.num.tdiv a.den

/-- `std::max` of two doubles as used by `valarray::max`. -/
def rmax (a b : R) : R := if R.lt a b then b else a

/-- `valarray::max()`: the largest element.  On an empty valarray the C++
call is undefined behaviour; the model returns 0 there (no claim relies on
that case, and the one theorem touching it excludes empty arrays). -/
def valarrayMax : List R → R
  | [] => ⟨0, 1⟩
  | x :: xs => xs.foldl rmax x

/-- `Real eps = 1e-6f;` in `atom_eq` (musil.h line 287).  The float literal
`1e-6f` is exactly 8796093 / 2^43, which is strictly less than 10^-6. -/
def eps : R := ⟨8796093, 8796093022208⟩

/-- Identities of the built-in functors that this development registers;
they model the C++ function pointers compared by `eval`. -/
inductive OpId where
  | quoteF | defF | setF | lambdaF | macF | ifF | whileF | beginF
  | evalF | applyF
  | listF | lindexF | llengthF | arrayF | eqF
  | addF | subF | mulF | divF
deriving DecidableEq, Repr

/-- The `Atom` tagged variant (musil.h lines 42-82).  `LIST` carries its
elements; `SYMBOL`/`STRING` carry the lexeme as a character list; `ARRAY`
carries its doubles; `LAMBDA`/`MACRO` carry the parameter list, the body
expressions and the address of the captured environment; `OP` carries the
functor identity, its registered lexeme and `minargs`. -/
inductive Value where
  | list (xs : List Value)
  | sym (s : List Char)
  | str (s : List Char)
  | arr (xs : List R)
  | lam (vars : List Value) (body : List Value) (env : Nat)
  | mac (vars : List Value) (body : List Value) (env : Nat)
  | op (id : OpId) (name : List Char) (minargs : Nat)

/-- Conversion of a string literal to a character list (used to write
symbol lexemes compactly). -/
def cs (s : String) : List Char := s.data

/-- The `AtomType` tag of a value, in the enum order of musil.h line 38. -/
def tagOf : Value → Nat
  | .list _ => 0
  | .sym _ => 1
  | .str _ => 2
  | .arr _ => 3
  | .lam _ _ _ => 4
  | .mac _ _ _ => 5
  | .op _ _ _ => 6

/-- `is_nil` (musil.h line 83): the empty list.  The C++ null handle also
counts as nil; the model has no null handles (`make_atom()` is `.list []`). -/
def is_nil : Value → Bool
  | .list [] => true
  | _ => false

/-- The `lexeme` field of an atom.  Atoms built by the reader set it for
symbols and strings; `add_op` sets it for ops; it is empty otherwise. -/
def Value.lexeme : Value → List Char
  | .sym s => s
  | .str s => s
  | .op _ name _ => name
  | _ => []

mutual

/-- A size measure on values, used as a fuel bound for the reader. -/
def vsize : Value → Nat
  | .list xs => 1 + vsizeL xs
  | .sym _ => 2
  | .str _ => 2
  | .arr _ => 2
  | .lam vars body _ => 2 + vsizeL vars + vsizeL body
  | .mac vars body _ => 2 + vsizeL vars + vsizeL body
  | .op _ _ _ => 2

def vsizeL : List Value → Nat
  | [] => 1
  | x :: xs => 1 + vsize x + vsizeL xs

end

mutual

/-- Syntactic equality of values.  It is used only to model the
LAMBDA/MACRO case of `atom_eq`, where the C++ code compares the
`shared_ptr` identities of the parameter list and the body; pointer
identity is not expressible in the model and is over-approximated by
syntactic equality.  No claim exercises that case. -/
def veq : Value → Value → Bool
  | .list xs, .list ys => veqL xs ys
  | .sym s, .sym t => s == t
  | .str s, .str t => s == t
  | .arr xs, .arr ys => xs == ys
  | .lam v1 b1 e1, .lam v2 b2 e2 => veqL v1 v2 && veqL b1 b2 && e1 == e2
  | .mac v1 b1 e1, .mac v2 b2 e2 => veqL v1 v2 && veqL b1 b2 && e1 == e2
  | .op i1 _ _, .op i2 _ _ => i1 == i2
  | _, _ => false

def veqL : List Value → List Value → Bool
  | [], [] => true
  | x :: xs, y :: ys => veq x y && veqL xs ys
  | _, _ => false

end

mutual

/-- `atom_eq` (musil.h lines 270-301).  Nil handling, tag comparison,
lexeme equality for symbols/strings, length plus `|a-b|` max tolerance for
arrays, and functor identity for ops follow the source line by line.
`atom_eq_list` is the LIST loop of lines 277-281. -/
def atom_eq (a b : Value) : Bool :=
  if is_nil a && !(is_nil b) then false
  else if !(is_nil a) && is_nil b then false
  else if is_nil a && is_nil b then true
  else if tagOf a != tagOf b then false
  else match a, b with
  | .list xs, .list ys => xs.length == ys.length && atom_eq_list xs ys
  | .sym s, .sym t => s == t
  | .str s, .str t => s == t
  | .arr xs, .arr ys =>
      xs.length == ys.length &&
      R.lt (valarrayMax ((xs.zipWith R.sub ys).map R.abs)) eps
  | .lam v1 b1 _, .lam v2 b2 _ => veq (.list v1) (.list v2) && veq (.list b1) (.list b2)
  | .mac v1 b1 _, .mac v2 b2 _ => veq (.list v1) (.list v2) && veq (.list b1) (.list b2)
  | .op i1 _ _, .op i2 _ _ => i1 == i2
  | _, _ => false

def atom_eq_list : List Value → List Value → Bool
  | [], [] => true
  | x :: xs, y :: ys => atom_eq x y && atom_eq_list xs ys
  | _, _ => false

end

/-! ## Reader: lexing (musil.h lines 193-245) -/

/-- An input stream: the remaining characters and the `eofbit` flag.
`std::istream::eof()` is true only after a read past the end has failed,
which is why the flag is tracked separately from emptiness of the buffer.
The byte-level stream is modelled at character granularity. -/
structure IStream where
  buf : List Char
  flag : Bool
deriving DecidableEq, Repr

/-- The string-literal subloop of `next` (musil.h lines 222-235).
`c` is the variable read by `in.get (c)`; when the stream is exhausted the
failed `get` leaves `c` unchanged and the loop body runs once more with the
stale character before the eof test stops it — this re-processing of the
last character is reproduced below.  The escapes n, r, t and the escaped
quote decode; the switch has no default case, so any other escaped
character is consumed without being appended. -/
def lexString : List Char → Char → List Char → Nat → (List Char × IStream × Nat)
  | [], c, acc, ln =>
      let ln2 := if c = '\n' then ln + 1 else ln
      if c = '"' then (acc, ⟨[], true⟩, ln2)
      else if c = '\\' then (acc, ⟨[], true⟩, ln2)
      else (acc ++ [c], ⟨[], true⟩, ln2)
  | ch :: rest, _, acc, ln =>
      let ln2 := if ch = '\n' then ln + 1 else ln
      if ch = '"' then (acc, ⟨rest, false⟩, ln2)
      else if ch = '\\' then
        match rest with
        | [] => (acc, ⟨[], true⟩, ln2)
        | e :: rest2 =>
          if e = 'n' then lexString rest2 e (acc ++ ['\n']) ln2
          else if e = 'r' then lexString rest2 e (acc ++ ['\r']) ln2
          else if e = 't' then lexString rest2 e (acc ++ ['\t']) ln2
          else if e = '"' then lexString rest2 (Char.ofNat 0) (acc ++ ['"']) ln2
          else lexString rest2 e acc ln2
      else lexString rest ch (acc ++ [ch]) ln2

/-- The body of `next`'s tokenising loop (musil.h lines 195-243), entered
with the eof flag unset.  The final Bool argument is true while the line
comment started by `;` is being skipped (the do-while of lines 199-200);
the `++linenum` after that do-while fires on both of its exits.  In the
default case only characters with positive `char` value (bytes 1..127) are
accumulated. -/
def nextLoop : List Char → Nat → List Char → Bool → (List Char × IStream × Nat)
  | [], ln, acc, inComment =>
      if inComment then (acc, ⟨[], true⟩, ln + 1) else (acc, ⟨[], true⟩, ln)
  | c :: rest, ln, acc, true =>
      if c = '\n' then nextLoop rest (ln + 1) acc false
      else nextLoop rest ln acc true
  | c :: rest, ln, acc, false =>
      if c = ';' then nextLoop rest ln acc true
      else if c = '(' ∨ c = ')' ∨ c = '\'' then
        if acc.length ≠ 0 then (acc, ⟨c :: rest, false⟩, ln)
        else ([c], ⟨rest, false⟩, ln)
      else if c = '\t' ∨ c = '\n' ∨ c = '\r' ∨ c = ' ' then
        let ln2 := if c = '\n' then ln + 1 else ln
        if acc.length ≠ 0 then (acc, ⟨rest, false⟩, ln2)
        else nextLoop rest ln2 acc false
      else if c = '"' then
        if acc.length ≠ 0 then (acc, ⟨c :: rest, false⟩, ln)
        else lexString rest c [c] ln
      else
        if 0 < c.toNat ∧ c.toNat ≤ 127 then nextLoop rest ln (acc ++ [c]) false
        else nextLoop rest ln acc false

/-- `next` (musil.h lines 193-245): returns the next token, the remaining
stream and the updated line counter.  With the eof flag already set the
while loop never runs and the (empty) accumulator is returned. -/
def next (st : IStream) (ln : Nat) (acc : List Char) : List Char × IStream × Nat :=
  if st.flag then (acc, st, ln) else nextLoop st.buf ln acc false

/-! ## Reader: numbers and atoms (musil.h lines 88-98, 263-268) -/

/-- Strip one leading sign character. -/
def dropSign : List Char → List Char
  | '+' :: r => r
  | '-' :: r => r
  | l => l

/-- Validity of an exponent suffix after the mantissa. -/
def expOk : List Char → Bool
  | [] => true
  | e :: r =>
      (e = 'e' ∨ e = 'E') &&
      (let r2 := dropSign r
       !r2.isEmpty && r2.all Char.isDigit)

/-- `is_number` (musil.h lines 92-98): the token parses as a double with
the whole token consumed.  The stream extraction is modelled by the
decimal grammar sign? (digits [. digits?] | . digits) [e|E sign? digits];
hexadecimal, infinity and nan spellings are not modelled (no claim and no
readable symbol in this development produces them). -/
def is_number (tok : List Char) : Bool :=
  let t := dropSign tok
  let d1 := t.takeWhile Char.isDigit
  let r1 := t.dropWhile Char.isDigit
  match r1 with
  | '.' :: r2 =>
      let d2 := r2.takeWhile Char.isDigit
      let r3 := r2.dropWhile Char.isDigit
      (!d1.isEmpty || !d2.isEmpty) && expOk r3
  | _ => !d1.isEmpty && expOk r1

/-- Numeric value of a digit run. -/
def digitsVal : List Char → Nat :=
  fun l => l.foldl (fun n c => 10 * n + (c.toNat - 48)) 0

/-- `atof` on a token accepted by `is_number`: the exact rational value of
the decimal literal (the rounding of that value to the nearest double is
not modelled; every literal evaluated in this development is exactly
representable). -/
def parseReal (tok : List Char) : R :=
  let neg := tok.headD ' ' = '-'
  let t := dropSign tok
  let d1 := t.takeWhile Char.isDigit
  let r1 := t.dropWhile Char.isDigit
  let d2 := match r1 with | '.' :: r2 => r2.takeWhile Char.isDigit | _ => []
  let rExp := match r1 with | '.' :: r2 => r2.dropWhile Char.isDigit | _ => r1
  let mantNum : Int := (digitsVal d1) * (10 ^ d2.length) + digitsVal d2
  let mantDen : Int := 10 ^ d2.length
  let ex : Int :=
    match rExp with
    | _ :: r => (if r.headD ' ' = '-' then -1 else 1) * (digitsVal (dropSign r))
    | [] => 0
  let sNum : Int := if neg then -mantNum else mantNum
  if 0 ≤ ex then ⟨sNum * 10 ^ ex.toNat, mantDen⟩ else ⟨sNum, mantDen * 10 ^ (-ex).toNat⟩

/-- `is_string` (musil.h lines 88-91): the lexeme has more than one
character and starts with a double quote. -/
def is_string : List Char → Bool
  | c :: _ :: _ => c = '"'
  | _ => false

/-- The `Atom (std::string)` constructor (musil.h lines 44-53): a lexeme
recognised by `is_string` becomes a STRING with the leading quote dropped,
anything else a SYMBOL. -/
def mkAtom (lex : List Char) : Value :=
  if is_string lex then .str (lex.drop 1) else .sym lex

/-! ## Reader: parsing (musil.h lines 246-269) -/

/-- The list-reading loop of `read` (musil.h lines 250-256): while the
stream has not hit eof, read a child; a child whose lexeme is `)` closes
the list, every other child (including the nil returned for an empty
token) is appended.  `rd` is the recursive reader, `k` bounds the number
of iterations. -/
def readList (rd : IStream → Nat → Value × IStream × Nat) :
    Nat → IStream → Nat → List Value → Value × IStream × Nat
  | 0, st, ln, acc => (.list acc, st, ln)
  | k + 1, st, ln, acc =>
    if st.flag then (.list acc, st, ln)
    else
      let r := rd st ln
      if r.1.lexeme = [')'] then (.list acc, r.2.1, r.2.2)
      else readList rd k r.2.1 r.2.2 (acc ++ [r.1])

/-- `read` (musil.h lines 246-269), with fuel bounding the recursion
depth and the list-loop iterations.  An empty token yields nil; `(` opens
a list; `'` wraps the next form in `(quote …)`; a numeric token becomes a
length-1 array via `atof`; anything else becomes a symbol or string atom. -/
def read : Nat → IStream → Nat → Value × IStream × Nat
  | 0 => fun st ln => (.list [], st, ln)
  | fuel + 1 => fun st ln =>
    let t := next st ln []
    if t.1 = [] then (.list [], t.2.1, t.2.2)
    else if t.1 = ['('] then readList (read fuel) fuel t.2.1 t.2.2 []
    else if t.1 = ['\''] then
      let r := read fuel t.2.1 t.2.2
      (.list [.sym (cs "quote"), r.1], r.2.1, r.2.2)
    else if is_number t.1 then (.arr [parseReal t.1], t.2.1, t.2.2)
    else (mkAtom t.1, t.2.1, t.2.2)

/-! ## Printer (musil.h lines 99-142) -/

/-- Rendering of one double by `operator<<`.  Only integral values are
printed by any claim; they print as their integer numeral, which is what
the default ostream formatting produces for them.  Non-integral values
are rendered as `num/den`, standing in for the 6-significant-digit
decimal rendering that is not modelled. -/
def formatReal (x : R) : List Char :=
  if x.den = 1 then (toString x.num).data
  else (toString x.num).data ++ '/' :: (toString x.den).data

/-- The element loop of `print_valarray` (musil.h lines 99-107): elements
separated by single spaces. -/
def printRs : List R → List Char
  | [] => []
  | [x] => formatReal x
  | x :: xs => formatReal x ++ ' ' :: printRs xs

mutual

/-- `print` (musil.h lines 108-142).  Lists print parenthesised with
space separators; symbols print raw; strings print quoted in write mode
and raw otherwise; arrays print as `print_valarray` followed by
`std::endl`; lambdas/macros print their parameter list and body; ops
print their registered lexeme in write mode and an opaque marker (whose
pointer text is not modelled) otherwise. -/
def print (w : Bool) : Value → List Char
  | .list xs => '(' :: printL w xs ++ [')']
  | .sym s => s
  | .str s => if w then '"' :: s ++ ['"'] else s
  | .arr xs => '[' :: printRs xs ++ [']'] ++ ['\n']
  | .lam vars body _ =>
      cs "(lambda " ++ ('(' :: printL w vars ++ [')']) ++
        ' ' :: ('(' :: printL w body ++ [')']) ++ [')']
  | .mac vars body _ =>
      cs "(macro " ++ ('(' :: printL w vars ++ [')']) ++
        ' ' :: ('(' :: printL w body ++ [')']) ++ [')']
  | .op _ name _ => if w then name else cs "<op @ >"

/-- The child loop of the LIST case: a space after every child but the
last. -/
def printL (w : Bool) : List Value → List Char
  | [] => []
  | [x] => print w x
  | x :: xs => print w x ++ ' ' :: printL w xs

end

/-! ## Errors and checks (musil.h lines 143-173) -/

/-- A raised interpreter error (`error` throws `std::runtime_error`) or
fuel exhaustion of the model.  Only the base message of `error` is kept;
the appended offending form and stack trace are not modelled. -/
inductive EvalErr where
  | err (msg : String)
  | fuel
deriving DecidableEq, Repr

/-- `args_check` (musil.h lines 162-167) on a tail list; the message
drops the required/got counts that the source interpolates. -/
def args_check (node : List Value) (k : Nat) : Except EvalErr Unit :=
  if node.length < k then .error (.err "insufficient number of arguments") else .ok ()

/-- `type_check (node, LIST)` (musil.h lines 168-173), returning the
elements. -/
def type_check_list : Value → Except EvalErr (List Value)
  | .list xs => .ok xs
  | _ => .error (.err "invalid type")

/-- `type_check (node, ARRAY)`, returning the doubles. -/
def type_check_arr : Value → Except EvalErr (List R)
  | .arr xs => .ok xs
  | _ => .error (.err "invalid type")

/-- `type_check (node, SYMBOL)`, returning the node itself (it is stored
as a binding key). -/
def type_check_sym : Value → Except EvalErr Value
  | .sym s => .ok (.sym s)
  | _ => .error (.err "invalid type")

/-- `std::vector::at`: the element, or the `std::out_of_range` the C++
call throws. -/
def getArg (args : List Value) (i : Nat) : Except EvalErr Value :=
  match args[i]? with
  | some v => .ok v
  | none => .error (.err "out_of_range")

/-- `->array[0]`: the first element of a valarray.  On an empty array the
C++ access is undefined behaviour; the total model returns 0 (no claim
depends on that case). -/
def array0 (xs : List R) : R := xs.headD ⟨0, 1⟩

/-! ## Environments (musil.h lines 302-331)

A C++ environment is a LIST atom whose slot 0 is the parent environment
(a nil atom at the root) and whose remaining slots are `(symbol value)`
records; environments are shared through `shared_ptr` and mutated in
place.  The model stores the frames in a `Store`; an environment is an
address (index) into it. -/

/-- One environment frame: the parent address (`none` models the nil
parent of the root) and the binding records in order. -/
structure Frame where
  parent : Option Nat
  binds : List (Value × Value)

/-- The heap of environment frames; allocation appends. -/
abbrev Store := List Frame

/-- The binding scan shared by `assoc` and `extend`: first record of the
frame whose key satisfies `atom_eq` wins. -/
def findBind (x : Value) : List (Value × Value) → Option Value
  | [] => none
  | (k, v) :: r => if atom_eq x k then some v else findBind x r

/-- `assoc` (musil.h lines 302-310): look the symbol up in the frame,
else recurse into the parent, else fail `unbound identifier`.  The fuel
bounds the parent chain (callers pass `σ.length + 1`, which a well-formed
chain never exhausts). -/
def assoc : Nat → Value → Nat → Store → Except EvalErr Value
  | 0 => fun _ _ _ => .error .fuel
  | n + 1 => fun x a σ =>
    match σ[a]? with
    | none => .error (.err "invalid environment address")
    | some fr =>
      match findBind x fr.binds with
      | some v => .ok v
      | none =>
        match fr.parent with
        | some p => assoc n x p σ
        | none => .error (.err "unbound identifier")

/-- The in-frame scan of `extend` (musil.h lines 312-318): `some` with
the first matching record's value overwritten, `none` when the symbol is
absent from the frame. -/
def extendFrame (x v : Value) : List (Value × Value) → Option (List (Value × Value))
  | [] => none
  | (k, w) :: r =>
    if atom_eq x k then some ((k, v) :: r)
    else (extendFrame x v r).map (fun r2 => (k, w) :: r2)

/-- `extend` (musil.h lines 311-331).  With `recurse = false` (`def`):
overwrite in the current frame or append a new record there.  With
`recurse = true` (`=`): overwrite in the nearest frame that binds the
symbol, failing `unbound identifier` at the root.  Returns the stored
value and the updated store. -/
def extend : Nat → Value → Value → Nat → Store → Bool → Except EvalErr (Value × Store)
  | 0 => fun _ _ _ _ _ => .error .fuel
  | n + 1 => fun x v a σ recurse =>
    match σ[a]? with
    | none => .error (.err "invalid environment address")
    | some fr =>
      match extendFrame x v fr.binds with
      | some bs => .ok (v, σ.set a ⟨fr.parent, bs⟩)
      | none =>
        if recurse then
          match fr.parent with
          | some p => extend n x v p σ recurse
          | none => .error (.err "unbound identifier")
        else .ok (v, σ.set a ⟨fr.parent, fr.binds ++ [(x, v)]⟩)

/-! ## Pure built-in functors (musil.h lines 471-584, modelled subset) -/

/-- `fn_list` (musil.h lines 480-482): returns the argument list. -/
def fn_list (args : List Value) : Except EvalErr Value := .ok (.list args)

/-- `fn_lindex` (musil.h lines 483-489): on an empty list return nil; an
out-of-range index on a nonempty list raises; otherwise return the
element at the (double-truncated-to-int) index. -/
def fn_lindex (args : List Value) : Except EvalErr Value := do
  let o ← type_check_list (← getArg args 0)
  let pa ← type_check_arr (← getArg args 1)
  let p : Int := R.toInt (array0 pa)
  if o.length = 0 then .ok (.list [])
  else if p < 0 ∨ (o.length : Int) ≤ p then .error (.err "[lindex] invalid index")
  else getArg o p.toNat

/-- `fn_llength` (musil.h lines 499-501). -/
def fn_llength (args : List Value) : Except EvalErr Value := do
  let xs ← type_check_list (← getArg args 0)
  .ok (.arr [R.ofInt xs.length])

/-- The write loop of `fn_lreplace` (musil.h lines 538-542): for
`j = i, i+stride, …` below `i+len`, overwrite `l[j]` with `r[p]`,
incrementing `p`; `r->tail.at (p)` can throw.  The fuel passed by
`fn_lreplace` exceeds the iteration count. -/
def lreplaceLoop : Nat → List Value → List Value → Int → Int → Int → Nat →
    Except EvalErr (List Value)
  | 0 => fun l _ _ _ _ _ => .ok l
  | fuelN + 1 => fun l r j stop stride p =>
    if j < stop then
      match r[p]? with
      | none => .error (.err "out_of_range")
      | some v => lreplaceLoop fuelN (l.set j.toNat v) r (j + stride) stop stride (p + 1)
    else .ok l

/-- `fn_lreplace` (musil.h lines 525-544).  Result is the returned value
paired with the destination list after the call (the C++ mutates the
destination in place).  When any guard condition holds the functor
returns nil and the destination is untouched; otherwise it overwrites the
strided window and returns the source list. -/
def fn_lreplace (args : List Value) : Except EvalErr (Value × List Value) := do
  let l ← type_check_list (← getArg args 0)
  let r ← type_check_list (← getArg args 1)
  let i : Int := R.toInt (array0 (← type_check_arr (← getArg args 2)))
  let len : Int := R.toInt (array0 (← type_check_arr (← getArg args 3)))
  let stride : Int ←
    (if args.length = 5 then do
      .ok (R.toInt (array0 (← type_check_arr (← getArg args 4))))
    else .ok 1)
  if i < 0 ∨ len < 0 ∨ stride < 1 ∨ (l.length : Int) < i + len ∨
      (r.length : Int) < len.tdiv stride then
    .ok (.list [], l)
  else do
    let l2 ← lreplaceLoop (len.toNat + 1) l r i (i + len) stride 0
    .ok (.list r, l2)

/-- `fn_array` (musil.h lines 556-562): concatenate the argument arrays. -/
def fn_array (args : List Value) : Except EvalErr Value := do
  let xss ← args.mapM type_check_arr
  .ok (.arr xss.flatten)

/-- `fn_eq` (musil.h lines 563-565): `atom_eq` as a 0/1 double. -/
def fn_eq (args : List Value) : Except EvalErr Value := do
  let a ← getArg args 0
  let b ← getArg args 1
  .ok (.arr [if atom_eq a b then ⟨1, 1⟩ else ⟨0, 1⟩])

/-- The body generated by `MAKE_ARRAYMETHOD` (musil.h lines 566-575):
if the first operand has length 1 broadcast it over the second, else if
the second has length 1 broadcast it over the first, else apply the
operation elementwise.  (Elementwise application to arrays of different
lengths, both above 1, is undefined behaviour in C++; the model truncates
to the shorter operand, and no claim covers that case.) -/
def arraymethod (op : R → R → R) (a b : List R) : List R :=
  match a, b with
  | [x], _ => b.map (fun y => op x y)
  | _, [y] => a.map (fun x => op x y)
  | _, _ => List.zipWith op a b

/-- `MAKE_ARRAYMETHOD (fn_vadd, +)` (musil.h line 577). -/
def fn_vadd (args : List Value) : Except EvalErr Value := do
  let a ← type_check_arr (← getArg args 0)
  let b ← type_check_arr (← getArg args 1)
  .ok (.arr (arraymethod R.add a b))

/-- `MAKE_ARRAYMETHOD (fn_vsub, -)` (musil.h line 579). -/
def fn_vsub (args : List Value) : Except EvalErr Value := do
  let a ← type_check_arr (← getArg args 0)
  let b ← type_check_arr (← getArg args 1)
  .ok (.arr (arraymethod R.sub a b))

/-- `MAKE_ARRAYMETHOD (fn_vmul, *)` (musil.h line 578). -/
def fn_vmul (args : List Value) : Except EvalErr Value := do
  let a ← type_check_arr (← getArg args 0)
  let b ← type_check_arr (← getArg args 1)
  .ok (.arr (arraymethod R.mul a b))

/-- `MAKE_ARRAYMETHOD (fn_vdiv, /)` (musil.h line 580). -/
def fn_vdiv (args : List Value) : Except EvalErr Value := do
  let a ← type_check_arr (← getArg args 0)
  let b ← type_check_arr (← getArg args 1)
  .ok (.arr (arraymethod R.div a b))

/-- Dispatch from a functor identity to its implementation, modelling the
call `func->op (args, env)` (musil.h line 464).  The special-form
sentinel ids map to nil: their dummy functors (musil.h lines 332-342) are
unreachable because `eval` intercepts the sentinels before the generic OP
call. -/
def applyPrim (id : OpId) (args : List Value) : Except EvalErr Value :=
  match id with
  | .listF => fn_list args
  | .lindexF => fn_lindex args
  | .llengthF => fn_llength args
  | .arrayF => fn_array args
  | .eqF => fn_eq args
  | .addF => fn_vadd args
  | .subF => fn_vsub args
  | .mulF => fn_vmul args
  | .divF => fn_vdiv args
  | _ => .ok (.list [])

/-! ## The evaluator (musil.h lines 343-468) -/

/-- Identity test against a registered functor, modelling the pointer
comparisons `func->op == &fn_…`. -/
def Value.isOpId : Value → OpId → Bool
  | .op i _ _, j => i == j
  | _, _ => false

/-- MACRO tag test (`func->type == MACRO`). -/
def Value.isMac : Value → Bool
  | .mac _ _ _ => true
  | _ => false

/-- Left-to-right evaluation of an expression list, collecting the values
and threading the store: the argument loop of musil.h lines 414-417. -/
def evalArgsH (ev : Value → Nat → Store → Except EvalErr (Value × Store)) :
    List Value → Nat → Store → Except EvalErr (List Value × Store)
  | [] => fun _ σ => .ok ([], σ)
  | e :: es => fun env σ => do
    let (v, σ2) ← ev e env σ
    let (vs, σ3) ← evalArgsH ev es env σ2
    .ok (v :: vs, σ3)

/-- Evaluation of an expression list for its effects (the `begin` prefix
loop and the lambda body prefix loop). -/
def evalSeqH (ev : Value → Nat → Store → Except EvalErr (Value × Store)) :
    List Value → Nat → Store → Except EvalErr Store
  | [] => fun _ σ => .ok σ
  | e :: es => fun env σ => do
    let (_, σ2) ← ev e env σ
    evalSeqH ev es env σ2

/-- The macro body prefix loop (musil.h lines 444-446): each expression
is evaluated and its result evaluated again in the same environment. -/
def macroSeqH (ev : Value → Nat → Store → Except EvalErr (Value × Store)) :
    List Value → Nat → Store → Except EvalErr Store
  | [] => fun _ σ => .ok σ
  | e :: es => fun env σ => do
    let (f1, σ2) ← ev e env σ
    let (_, σ3) ← ev f1 env σ2
    macroSeqH ev es env σ3

/-- The `while` loop of musil.h lines 389-396, with an iteration bound. -/
def whileH (ev : Value → Nat → Store → Except EvalErr (Value × Store)) :
    Nat → Value → Value → Nat → Store → Value → Except EvalErr (Value × Store)
  | 0 => fun _ _ _ _ _ => .error .fuel
  | k + 1 => fun test body env σ r => do
    let (tv, σ2) ← ev test env σ
    let ta ← type_check_arr tv
    if R.toBool (array0 ta) then do
      let (r2, σ3) ← ev body env σ2
      whileH ev k test body env σ3 r2
    else .ok (r, σ2)

/-- The parameter-binding loop of musil.h lines 426-428: `extend` each
(parameter, argument) pair into the new frame. -/
def bindParams : List (Value × Value) → Nat → Store → Except EvalErr Store
  | [] => fun _ σ => .ok σ
  | (x, v) :: rest => fun a σ => do
    let (_, σ2) ← extend (σ.length + 1) x v a σ false
    bindParams rest a σ2

/-- `eval` (musil.h lines 343-468).  The dispatch follows the source: nil
and non-list non-symbol nodes self-evaluate; symbols with a nonempty
lexeme are looked up; for an application the head is evaluated and
compared against the special-form sentinels before the arguments are
touched; then arguments are evaluated (or passed raw to a macro), lambdas
and macros bind a fresh frame parented on their captured environment
(with the partial-application path of lines 430-442 reproduced verbatim,
including its `vars_cut` construction), and ops run after `args_check`
with `eval`/`apply` trampolined.  The `schedule` branch (lines 405-413)
is not modelled and its op is not registered.  The C++ trampoline's
`continue` is a recursive call on the fuel predecessor here; the
diagnostic `eval_stack` push/pop is not modelled. -/
def eval : Nat → Value → Nat → Store → Except EvalErr (Value × Store)
  | 0 => fun _ _ _ => .error .fuel
  | fuel + 1 => fun node env σ =>
    if is_nil node then .ok (.list [], σ)
    else match node with
    | .sym s =>
      if s.length ≠ 0 then do
        let v ← assoc (σ.length + 1) (.sym s) env σ
        .ok (v, σ)
      else .ok (.sym s, σ)
    | .list [] => .ok (.list [], σ)
    | .list (hd :: tl) => do
      let (func, σ1) ← eval fuel hd env σ
      if func.isOpId .quoteF then do
        let _ ← args_check (hd :: tl) 2
        let a ← getArg (hd :: tl) 1
        .ok (a, σ1)
      else if func.isOpId .defF then do
        let _ ← args_check (hd :: tl) 3
        let s ← type_check_sym (← getArg (hd :: tl) 1)
        let (v, σ2) ← eval fuel (← getArg (hd :: tl) 2) env σ1
        extend (σ2.length + 1) s v env σ2 false
      else if func.isOpId .setF then do
        let _ ← args_check (hd :: tl) 3
        let s ← type_check_sym (← getArg (hd :: tl) 1)
        let (v, σ2) ← eval fuel (← getArg (hd :: tl) 2) env σ1
        extend (σ2.length + 1) s v env σ2 true
      else if func.isOpId .lambdaF || func.isOpId .macF then do
        let _ ← args_check (hd :: tl) 3
        let vars ← type_check_list (← getArg (hd :: tl) 1)
        let body := tl.drop 1
        .ok (if func.isOpId .macF then .mac vars body env else .lam vars body env, σ1)
      else if func.isOpId .ifF then do
        let _ ← args_check (hd :: tl) 3
        let (tv, σ2) ← eval fuel (← getArg (hd :: tl) 1) env σ1
        let ta ← type_check_arr tv
        if R.toBool (array0 ta) then do
          let a ← getArg (hd :: tl) 2
          eval fuel a env σ2
        else if (hd :: tl).length = 4 then do
          let a ← getArg (hd :: tl) 3
          eval fuel a env σ2
        else .ok (.list [], σ2)
      else if func.isOpId .whileF then do
        let _ ← args_check (hd :: tl) 3
        let test ← getArg (hd :: tl) 1
        let body ← getArg (hd :: tl) 2
        whileH (eval fuel) fuel test body env σ1 (.list [])
      else if func.isOpId .beginF then do
        let _ ← args_check (hd :: tl) 2
        let σ2 ← evalSeqH (eval fuel) ((hd :: tl).dropLast) env σ1
        eval fuel ((hd :: tl).getLastD (.list [])) env σ2
      else do
        let (args, σ2) ←
          (if func.isMac then (.ok (tl, σ1) : Except EvalErr (List Value × Store))
           else evalArgsH (eval fuel) tl env σ1)
        match func with
        | .lam vars body fenv | .mac vars body fenv =>
          let nenvA := σ2.length
          let σ3 := σ2 ++ [⟨some fenv, []⟩]
          if vars.length < args.length then
            .error (.err "[lambda/macro] too many arguments")
          else do
            let minargsN := if vars.length > args.length then args.length else vars.length
            let σ4 ← bindParams (List.zip vars args) nenvA σ3
            if vars.length > args.length then
              let varsCut := vars.take minargsN
              .ok (if func.isMac then .mac varsCut body nenvA else .lam varsCut body nenvA, σ4)
            else if func.isMac then do
              let σ5 ← macroSeqH (eval fuel) body.dropLast nenvA σ4
              let (form, σ6) ← eval fuel (body.getLastD (.list [])) nenvA σ5
              eval fuel form nenvA σ6
            else do
              let σ5 ← evalSeqH (eval fuel) body.dropLast nenvA σ4
              eval fuel (body.getLastD (.list [])) nenvA σ5
        | .op id _ ma => do
          let _ ← args_check args ma
          if id == .evalF then do
            let a ← getArg args 0
            eval fuel a env σ2
          else if id == .applyF then do
            let f0 ← getArg args 0
            let l ← type_check_list (← getArg args 1)
            eval fuel (.list (f0 :: l)) env σ2
          else do
            let v ← applyPrim id args
            .ok (v, σ2)
        | _ => .error (.err "function expected")
    | other => .ok (other, σ)

/-! ## Root environment and program runs (musil.h lines 796-865) -/

/-- `add_op` (musil.h lines 796-801): build the OP atom carrying its
lexeme and `minargs` and `extend` it into the environment.  `extend`
with `recurse = false` on a valid address cannot fail; the error arm is
dead. -/
def add_op (name : List Char) (id : OpId) (minargs : Nat) (env : Nat) (σ : Store) : Store :=
  match extend (σ.length + 1) (.sym name) (.op id name minargs) env σ false with
  | .ok (_, σ2) => σ2
  | .error _ => σ

/-- The `minargs = -1` of the special forms, stored in the unsigned
`minargs` field: 2^32 - 1.  `args_check` against it always fails, which
is irrelevant because the sentinels are intercepted before the generic
OP call. -/
def noChecked : Nat := 4294967295

/-- `make_env` (musil.h lines 802-865) restricted to the modelled ops, in
source registration order.  The omitted registrations (`schedule`, the
mutating list ops other than the standalone models above, the
comparisons, reductions, math functions and all I/O ops) play no part in
any claim. -/
def make_env : Store :=
  let σ0 : Store := [⟨none, []⟩]
  let σ1 := add_op (cs "quote") .quoteF noChecked 0 σ0
  let σ2 := add_op (cs "def") .defF noChecked 0 σ1
  let σ3 := add_op (cs "=") .setF noChecked 0 σ2
  let σ4 := add_op (cs "\\") .lambdaF noChecked 0 σ3
  let σ5 := add_op (cs "macro") .macF noChecked 0 σ4
  let σ6 := add_op (cs "if") .ifF noChecked 0 σ5
  let σ7 := add_op (cs "while") .whileF noChecked 0 σ6
  let σ8 := add_op (cs "begin") .beginF noChecked 0 σ7
  let σ9 := add_op (cs "eval") .evalF 1 0 σ8
  let σ10 := add_op (cs "apply") .applyF 2 0 σ9
  let σ11 := add_op (cs "list") .listF 0 0 σ10
  let σ12 := add_op (cs "lindex") .lindexF 2 0 σ11
  let σ13 := add_op (cs "llength") .llengthF 1 0 σ12
  let σ14 := add_op (cs "array") .arrayF 0 0 σ13
  let σ15 := add_op (cs "==") .eqF 2 0 σ14
  let σ16 := add_op (cs "+") .addF 2 0 σ15
  let σ17 := add_op (cs "-") .subF 2 0 σ16
  let σ18 := add_op (cs "*") .mulF 2 0 σ17
  let σ19 := add_op (cs "/") .divF 2 0 σ18
  σ19

/-- Evaluate a sequence of top-level forms in one environment, as the
REPL or `load` would, returning the last form's value. -/
def runSeq : List Value → Nat → Store → Except EvalErr (Value × Store)
  | [] => fun _ σ => .ok (.list [], σ)
  | [e] => fun env σ => eval 1000 e env σ
  | e :: es => fun env σ => do
    let (_, σ2) ← eval 1000 e env σ
    runSeq es env σ2

/-- Run a program against the modelled root environment and keep the
final value. -/
def runProgram (forms : List Value) : Except EvalErr Value :=
  (runSeq forms 0 make_env).map Prod.fst

/-- Shorthand for a numeric literal value (a length-1 array). -/
def num (n : Int) : Value := .arr [R.ofInt n]

/-- A binding record as `add_op` produces it. -/
def mkb (s : String) (i : OpId) (m : Nat) : Value × Value := (.sym (cs s), .op i (cs s) m)

/-- The root environment of `make_env`, written out as a literal store;
`make_env_is` below proves it equal to `make_env`, and the concrete runs
are evaluated against it (the kernel handles the literal far more cheaply
than the `add_op` cascade). -/
def env_lit : Store :=
  [⟨none,
    [ mkb "quote" .quoteF noChecked, mkb "def" .defF noChecked, mkb "=" .setF noChecked,
      mkb "\\" .lambdaF noChecked, mkb "macro" .macF noChecked, mkb "if" .ifF noChecked,
      mkb "while" .whileF noChecked, mkb "begin" .beginF noChecked, mkb "eval" .evalF 1,
      mkb "apply" .applyF 2, mkb "list" .listF 0, mkb "lindex" .lindexF 2,
      mkb "llength" .llengthF 1, mkb "array" .arrayF 0, mkb "==" .eqF 2,
      mkb "+" .addF 2, mkb "-" .subF 2, mkb "*" .mulF 2, mkb "/" .divF 2 ]⟩]

/-! ## The round-trippable fragment (for the amended claim C3)

The printer and reader do not invert each other on all values (the
counterexamples below exhibit failures for arrays, strings containing a
quote and numeric symbols).  The predicates here carve out the fragment
on which the round trip does hold: lists, symbols and strings whose
lexemes avoid the reader's delimiters and escapes. -/

/-- Characters usable in a round-trippable symbol: not one of the
tokeniser's delimiter or comment or quote characters, a positive `char`
byte (1..127), and not a digit (so that the printed symbol cannot lex as
a number). -/
def symFree (c : Char) : Bool :=
  !(c = '(' ∨ c = ')' ∨ c = '\'' ∨ c = ';' ∨ c = '"' ∨
    c = '\t' ∨ c = '\n' ∨ c = '\r' ∨ c = ' ') &&
  (0 < c.toNat && c.toNat ≤ 127) && !c.isDigit

/-- A round-trippable symbol lexeme: nonempty and made of `symFree`
characters. -/
def symOk (s : List Char) : Bool := !s.isEmpty && s.all symFree

/-- Characters usable in a round-trippable string literal: anything
except the terminating quote and the escape character (neither is
re-escaped by the printer). -/
def strFree (c : Char) : Bool := !(c = '"' ∨ c = '\\')

/-- A round-trippable string lexeme: nonempty, `strFree` characters, and
not the single character `)` (a string atom whose lexeme is `)` closes an
enclosing list when read back). -/
def strOk (s : List Char) : Bool := !s.isEmpty && s.all strFree && s ≠ [')']

mutual

/-- The readable fragment of the value space: lists, `symOk` symbols and
`strOk` strings. -/
def readable : Value → Bool
  | .sym s => symOk s
  | .str s => strOk s
  | .list xs => readableL xs
  | _ => false

def readableL : List Value → Bool
  | [] => true
  | x :: xs => readable x && readableL xs

end

/-- Contexts in which the round-trip statement composes: the printed
value is followed by nothing, by a closing paren, or by a separating
space. -/
def Sep (r : List Char) : Prop :=
  r = [] ∨ (∃ t, r = ')' :: t) ∨ (∃ t, r = ' ' :: t)

/-- The stream state left after reading a printed value back: a symbol
read to end-of-input sets the eof flag, a symbol followed by a space
consumes the space; in every other case the trailing stream is untouched
(a closing paren is put back; strings and lists consume their own
terminator). -/
def afterStream : Value → List Char → IStream
  | .sym _, [] => ⟨[], true⟩
  | .sym _, ' ' :: t => ⟨t, false⟩
  | _, r => ⟨r, false⟩

/-- The specification's description of `define` on one frame, as a single
recursive function: overwrite the value of the first binding whose key
matches `atom_eq`, otherwise append a new binding at the end (claim C8
relates it to the translated `extend`). -/
def overwriteFirstOrAppend (x v : Value) : List (Value × Value) → List (Value × Value)
  | [] => [(x, v)]
  | (k, w) :: r =>
    if atom_eq x k then (k, v) :: r
    else (k, w) :: overwriteFirstOrAppend x v r

/-! ## Theorems -/

/-- The `add_op` cascade of `make_env` produces exactly the literal store. -/
theorem make_env_is : make_env = env_lit := rfl

/-- Programs run against the literal form of the root environment. -/
theorem runProgram_eq (forms : List Value) :
    runProgram forms = (runSeq forms 0 env_lit).map Prod.fst := by
  unfold runProgram; rw [make_env_is]

/-- Claim C1: partial application is advertised to return a lambda over
the unbound parameter tail with the supplied bindings captured, making
`((f a) b)` equal to `(f a b)`.  The code instead builds the new
parameter list from the first k (already bound) parameters
(musil.h lines 430-442: `vars_cut` collects indices `0..minargs-1`), so
for the binary lambda `f = (\ (x y) (* x y))`, `(f 3)` returns a lambda
whose parameter list is `(x)` — not `(y)` — and `((f 3) 4)` rebinds `x`
and fails with `unbound identifier` for `y`, while `(f 3 4)` returns 12. -/
theorem c1_partial_application_failing_input :
    runProgram
      [ .list [.sym (cs "def"), .sym (cs "f"),
          .list [.sym (cs "\\"), .list [.sym (cs "x"), .sym (cs "y")],
            .list [.sym (cs "*"), .sym (cs "x"), .sym (cs "y")]]],
        .list [.sym (cs "f"), num 3] ]
      = .ok (.lam [.sym (cs "x")] [.list [.sym (cs "*"), .sym (cs "x"), .sym (cs "y")]] 1) ∧
    runProgram
      [ .list [.sym (cs "def"), .sym (cs "f"),
          .list [.sym (cs "\\"), .list [.sym (cs "x"), .sym (cs "y")],
            .list [.sym (cs "*"), .sym (cs "x"), .sym (cs "y")]]],
        .list [.list [.sym (cs "f"), num 3], num 4] ]
      = .error (.err "unbound identifier") ∧
    runProgram
      [ .list [.sym (cs "def"), .sym (cs "f"),
          .list [.sym (cs "\\"), .list [.sym (cs "x"), .sym (cs "y")],
            .list [.sym (cs "*"), .sym (cs "x"), .sym (cs "y")]]],
        .list [.sym (cs "f"), num 3, num 4] ]
      = .ok (num 12) := by
  refine ⟨?_, ?_, ?_⟩ <;> (rw [runProgram_eq]; rfl)

/-- Claim C2 counterexample: after `(def x 1) (def f (\ () x)) (def x 2)`
the call `(f)` returns the length-1 array 2, not 1 as claimed: the
captured environment is the shared frame object, and the third `def`
overwrites the existing binding record inside it (musil.h lines 311-318),
so the closure sees the value at call time. -/
theorem c2_counterexample :
    runProgram
      [ .list [.sym (cs "def"), .sym (cs "x"), num 1],
        .list [.sym (cs "def"), .sym (cs "f"),
          .list [.sym (cs "\\"), .list [], .sym (cs "x")]],
        .list [.sym (cs "def"), .sym (cs "x"), num 2],
        .list [.sym (cs "f")] ] = .ok (num 2) ∧
    atom_eq (num 2) (num 1) = false := by
  refine ⟨?_, rfl⟩
  rw [runProgram_eq]; rfl

/-- Claim C2 amended: the lambda's free variable resolves through the
shared captured frame, so `(f)` sees whatever `x`'s binding in that frame
currently holds — 1 before the re-definition and 2 after it. -/
theorem c2_call_time_binding :
    runProgram
      [ .list [.sym (cs "def"), .sym (cs "x"), num 1],
        .list [.sym (cs "def"), .sym (cs "f"),
          .list [.sym (cs "\\"), .list [], .sym (cs "x")]],
        .list [.sym (cs "f")] ] = .ok (num 1) ∧
    runProgram
      [ .list [.sym (cs "def"), .sym (cs "x"), num 1],
        .list [.sym (cs "def"), .sym (cs "f"),
          .list [.sym (cs "\\"), .list [], .sym (cs "x")]],
        .list [.sym (cs "def"), .sym (cs "x"), num 2],
        .list [.sym (cs "f")] ] = .ok (num 2) := by
  refine ⟨?_, ?_⟩ <;> (rw [runProgram_eq]; rfl)

/-- Claim C4 counterexample: on end-of-input inside an unterminated list
the reader returns the partial list as an ordinary value — `(1 2` reads
as the two-element list — and on end-of-input inside an unterminated
string it returns a String atom; no reader error is raised (neither
`next` nor `read` contains a call to `error`). -/
theorem c4_counterexample :
    read 100 ⟨cs "(1 2", false⟩ 0 = (.list [num 1, num 2], ⟨[], true⟩, 0) ∧
    (read 100 ⟨cs "\"abc", false⟩ 0).1 = .str (cs "abcc") := ⟨rfl, rfl⟩

/-- Claim C4 amended: end-of-input mid-list silently yields the list of
elements read so far (nested lists included), and end-of-input mid-string
silently yields a String of the accumulated content — with the final
ordinary character appended twice, because the failed `in.get (c)` leaves
`c` unchanged and the loop body re-processes the stale character. -/
theorem c4_partial_results :
    (read 100 ⟨cs "(7 (8", false⟩ 0).1 = .list [num 7, .list [num 8]] ∧
    (read 100 ⟨cs "\"xy", false⟩ 0).1 = .str (cs "xyy") := ⟨rfl, rfl⟩

/-- Claim C5 counterexample: inside a string literal the two-character
sequence backslash-x does not contribute `x` to the lexeme — the switch
on the escaped character has no default case, so the character is
consumed and dropped: `"a\xb"` lexes to the token `"ab`. -/
theorem c5_counterexample :
    (next ⟨cs "\"a\\xb\" t", false⟩ 0 []).1 = cs "\"ab" ∧
    cs "\"ab" ≠ cs "\"axb" := ⟨rfl, by decide⟩

/-- Claim C5 amended: the escapes `\n`, `\r`, `\t`, `\"` decode to their
C meanings, and for every other character c the sequence backslash-c is
consumed without contributing anything to the lexeme (the character is
dropped, not passed through). -/
theorem c5_escapes (c : Char) (h1 : c ≠ 'n') (h2 : c ≠ 'r') (h3 : c ≠ 't')
    (h4 : c ≠ '"') (rest : List Char) (stale : Char) (acc : List Char) (ln : Nat) :
    lexString ('\\' :: c :: rest) stale acc ln = lexString rest c acc ln ∧
    lexString ('\\' :: 'n' :: rest) stale acc ln = lexString rest 'n' (acc ++ ['\n']) ln ∧
    lexString ('\\' :: 'r' :: rest) stale acc ln = lexString rest 'r' (acc ++ ['\r']) ln ∧
    lexString ('\\' :: 't' :: rest) stale acc ln = lexString rest 't' (acc ++ ['\t']) ln ∧
    lexString ('\\' :: '"' :: rest) stale acc ln
      = lexString rest (Char.ofNat 0) (acc ++ ['"']) ln := by
  refine ⟨?_, ?_, ?_, ?_, ?_⟩ <;>
    simp [lexString, h1, h2, h3, h4]

/-- Witness for C5: the escaped `x` in a string literal is dropped. -/
theorem c5_escapes_witness :
    lexString ['\\', 'x', 'b', '"'] '"' ['"'] 0 = lexString ['b', '"'] 'x' ['"'] 0 :=
  (c5_escapes 'x' (by decide) (by decide) (by decide) (by decide) ['b', '"'] '"' ['"'] 0).1

/-- Claim C9 counterexample: the equality tolerance is `1e-6f`, the float
nearest 10^-6, which is strictly below 10^-6.  The arrays `[0]` and
`[eps]` differ by exactly eps, which is strictly less than 10^-6
(= 1/1000000, third conjunct), yet `atom_eq` deems them unequal and `==`
returns 0 — refuting the claimed "if and only if strictly less than
1e-6". -/
theorem c9_counterexample :
    atom_eq (.arr [⟨0, 1⟩]) (.arr [eps]) = false ∧
    fn_eq [.arr [⟨0, 1⟩], .arr [eps]] = .ok (.arr [⟨0, 1⟩]) ∧
    R.lt (R.abs (R.sub ⟨0, 1⟩ eps)) ⟨1, 1000000⟩ = true := ⟨rfl, rfl, rfl⟩

/-- The C cast of an integer-valued double is that integer. -/
theorem R.toInt_ofInt (n : Int) : R.toInt (R.ofInt n) = n := by
  simp [R.toInt, R.ofInt, Int.tdiv_one]

/-- `fn_lindex` evaluated on a list and an integer index, reduced to its
three-way case split. -/
theorem fn_lindex_reduce (xs : List Value) (p : Int) :
    fn_lindex [.list xs, .arr [R.ofInt p]] =
      (if xs.length = 0 then .ok (.list [])
       else if p < 0 ∨ (xs.length : Int) ≤ p then .error (.err "[lindex] invalid index")
       else getArg xs p.toNat) := by
  rw [show fn_lindex [.list xs, .arr [R.ofInt p]] =
      (if xs.length = 0 then .ok (.list [])
       else if R.toInt (R.ofInt p) < 0 ∨ (xs.length : Int) ≤ R.toInt (R.ofInt p) then
         .error (.err "[lindex] invalid index")
       else getArg xs (R.toInt (R.ofInt p)).toNat) from rfl]
  simp only [R.toInt_ofInt]

/-- Claim C6 counterexample: on the empty list `lindex` raises no error
for any index — it silently returns nil both at index 0 and at index 5 —
whereas the claim demands an error for every index into the empty list. -/
theorem c6_counterexample :
    fn_lindex [.list [], .arr [R.ofInt 0]] = .ok (.list []) ∧
    fn_lindex [.list [], .arr [R.ofInt 5]] = .ok (.list []) := ⟨rfl, rfl⟩

/-- Claim C6 amended: `lindex` returns the element at a zero-based
in-range index; an out-of-range index on a nonempty list raises the
domain error; but on the empty list every index returns nil silently
(musil.h line 486: `if (!o->tail.size ()) return make_atom ();`) instead
of raising. -/
theorem c6_lindex (xs : List Value) (p : Int) :
    (0 ≤ p → p < (xs.length : Int) → ∃ v, xs[p.toNat]? = some v ∧
      fn_lindex [.list xs, .arr [R.ofInt p]] = .ok v) ∧
    (xs ≠ [] → (p < 0 ∨ (xs.length : Int) ≤ p) →
      fn_lindex [.list xs, .arr [R.ofInt p]] = .error (.err "[lindex] invalid index")) ∧
    (xs = [] → fn_lindex [.list xs, .arr [R.ofInt p]] = .ok (.list [])) := by
  refine ⟨?_, ?_, ?_⟩
  · intro h0 h1
    have hlen : xs.length ≠ 0 := by
      intro h; rw [h] at h1; simp at h1; omega
    have hnat : p.toNat < xs.length := by omega
    cases hget : xs[p.toNat]? with
    | none =>
      exact absurd (List.getElem?_eq_none_iff.mp hget) (by omega)
    | some v =>
      refine ⟨v, rfl, ?_⟩
      rw [fn_lindex_reduce, if_neg hlen, if_neg (by omega)]
      simp [getArg, hget]
  · intro hne hout
    have hlen : xs.length ≠ 0 := by simpa [List.length_eq_zero] using hne
    rw [fn_lindex_reduce, if_neg hlen, if_pos hout]
  · intro h; subst h; rfl

/-- Witness for C6: index 1 of a two-element list is its second element;
index 5 of a one-element list raises; index 2 of the empty list is nil. -/
theorem c6_lindex_witness :
    fn_lindex [.list [num 7, num 8], .arr [R.ofInt 1]] = .ok (num 8) ∧
    fn_lindex [.list [num 7], .arr [R.ofInt 5]] = .error (.err "[lindex] invalid index") ∧
    fn_lindex [.list [], .arr [R.ofInt 2]] = .ok (.list []) := by
  refine ⟨?_, ?_, ?_⟩
  · obtain ⟨v, hv, h⟩ := (c6_lindex [num 7, num 8] 1).1 (by decide) (by decide)
    rw [show ([num 7, num 8][(1 : Int).toNat]?) = some (num 8) from rfl] at hv
    cases hv
    exact h
  · exact (c6_lindex [num 7] 5).2.1 (List.cons_ne_nil _ _) (by decide)
  · exact (c6_lindex [] 2).2.2 rfl

/-- Claim C7: the `MAKE_ARRAYMETHOD` body applies the scalar broadcast
when either operand has length 1 (first operand checked first, which
agrees with both broadcast readings when both are scalars), applies the
operation elementwise on equal lengths, and `(+ (array 1 2 3) 10)`
evaluates to `[11 12 13]`. -/
theorem c7_broadcast (op : R → R → R) (a b : List R) :
    (∀ x, a = [x] → arraymethod op a b = b.map (fun y => op x y)) ∧
    (∀ y, b = [y] → arraymethod op a b = a.map (fun x => op x y)) ∧
    (a.length = b.length → arraymethod op a b = List.zipWith op a b) ∧
    runProgram [.list [.sym (cs "+"), .list [.sym (cs "array"), num 1, num 2, num 3], num 10]]
      = .ok (.arr [⟨11, 1⟩, ⟨12, 1⟩, ⟨13, 1⟩]) := by
  refine ⟨?_, ?_, ?_, ?_⟩
  · rintro x rfl
    rcases b with _ | ⟨y1, _ | ⟨y2, bs⟩⟩ <;> rfl
  · rintro y rfl
    rcases a with _ | ⟨x1, _ | ⟨x2, as⟩⟩ <;> rfl
  · intro hlen
    rcases a with _ | ⟨x1, _ | ⟨x2, as⟩⟩ <;> rcases b with _ | ⟨y1, _ | ⟨y2, bs⟩⟩ <;>
      first
      | rfl
      | simp at hlen
  · rw [runProgram_eq]; rfl

/-- Witness for C7: scalar broadcast on the right operand. -/
theorem c7_broadcast_witness :
    arraymethod R.add [⟨1, 1⟩, ⟨2, 1⟩, ⟨3, 1⟩] [⟨10, 1⟩] = [⟨11, 1⟩, ⟨12, 1⟩, ⟨13, 1⟩] := by
  have h := (c7_broadcast R.add [⟨1, 1⟩, ⟨2, 1⟩, ⟨3, 1⟩] [⟨10, 1⟩]).2.1 ⟨10, 1⟩ rfl
  rw [h]; rfl

/-- The frame scan of `extend` either overwrites in place — producing
exactly what `overwriteFirstOrAppend` prescribes — or reports a miss, in
which case `overwriteFirstOrAppend` appends the new binding. -/
theorem extendFrame_spec (x v : Value) : ∀ bs : List (Value × Value),
    extendFrame x v bs = some (overwriteFirstOrAppend x v bs) ∨
    (extendFrame x v bs = none ∧ overwriteFirstOrAppend x v bs = bs ++ [(x, v)]) := by
  intro bs; induction bs with
  | nil => exact Or.inr ⟨rfl, rfl⟩
  | cons kw r ih =>
    obtain ⟨k, w⟩ := kw
    by_cases h : atom_eq x k = true
    · left; simp [extendFrame, overwriteFirstOrAppend, h]
    · rcases ih with h2 | ⟨h2, h3⟩
      · left; simp [extendFrame, overwriteFirstOrAppend, h, h2]
      · right; simp [extendFrame, overwriteFirstOrAppend, h, h2, h3]

/-- One step of `extend` on a valid address, with the frame exposed. -/
theorem extend_succ (n : Nat) (x v : Value) (a : Nat) (σ : Store) (rec : Bool)
    (fr : Frame) (h : σ[a]? = some fr) :
    extend (n + 1) x v a σ rec =
      (match extendFrame x v fr.binds with
       | some bs => .ok (v, σ.set a ⟨fr.parent, bs⟩)
       | none =>
         if rec then
           match fr.parent with
           | some p => extend n x v p σ rec
           | none => .error (.err "unbound identifier")
         else .ok (v, σ.set a ⟨fr.parent, fr.binds ++ [(x, v)]⟩)) := by
  simp only [extend]
  rw [h]

/-- Claim C8: `define` (`extend` with `recurse = false`) overwrites the
value of the first `atom_eq`-matching binding of the current frame if one
exists and otherwise appends a new binding there, returns the defined
value, and leaves every other frame of the store untouched. -/
theorem c8_define (x v : Value) (a : Nat) (σ : Store) (fr : Frame)
    (h : σ[a]? = some fr) :
    extend (σ.length + 1) x v a σ false
      = .ok (v, σ.set a ⟨fr.parent, overwriteFirstOrAppend x v fr.binds⟩) ∧
    ∀ b, b ≠ a →
      (σ.set a ⟨fr.parent, overwriteFirstOrAppend x v fr.binds⟩)[b]? = σ[b]? := by
  constructor
  · rw [extend_succ _ x v a σ false fr h]
    rcases extendFrame_spec x v fr.binds with h2 | ⟨h2, h3⟩
    · rw [h2]
    · rw [h2, h3]
      rfl
  · intro b hb
    exact List.getElem?_set_ne (Ne.symm hb)

/-- Witness for C8: overwriting the first binding of `a` in a two-binding
frame, leaving the second binding in place. -/
theorem c8_define_witness :
    extend 2 (.sym (cs "a")) (num 9) 0
        [⟨none, [(.sym (cs "a"), num 1), (.sym (cs "b"), num 2)]⟩] false
      = .ok (num 9, [⟨none, [(.sym (cs "a"), num 9), (.sym (cs "b"), num 2)]⟩]) := by
  have h := (c8_define (.sym (cs "a")) (num 9) 0
      [⟨none, [(.sym (cs "a"), num 1), (.sym (cs "b"), num 2)]⟩]
      ⟨none, [(.sym (cs "a"), num 1), (.sym (cs "b"), num 2)]⟩ rfl).1
  exact h

/-- Unfolding of the strict order on exact rationals. -/
theorem rlt_iff (a b : R) : R.lt a b = true ↔ a.num * b.den < b.num * a.den := by
  simp [R.lt]

/-- Transitivity of the cross-multiplied order under positive
denominators. -/
theorem rlt_trans {a b c : R} (ha : 0 < a.den) (hb : 0 < b.den) (hc : 0 < c.den)
    (h1 : R.lt a b = true) (h2 : R.lt b c = true) : R.lt a c = true := by
  rw [rlt_iff] at h1 h2 ⊢
  have k1 := mul_lt_mul_of_pos_right h1 hc
  have k2 := mul_lt_mul_of_pos_right h2 ha
  have k3 : a.num * c.den * b.den < c.num * a.den * b.den := by nlinarith
  exact lt_of_mul_lt_mul_right k3 (le_of_lt hb)

/-- If `a` is at least `y` and `a` is below `c`, then `y` is below `c`
(positive denominators). -/
theorem rle_lt_trans {a y c : R} (ha : 0 < a.den) (hy : 0 < y.den) (hc : 0 < c.den)
    (h1 : ¬ R.lt a y = true) (h2 : R.lt a c = true) : R.lt y c = true := by
  rw [rlt_iff] at h2 ⊢
  rw [rlt_iff] at h1
  push_neg at h1
  have k1 := mul_le_mul_of_nonneg_right h1 (le_of_lt hc)
  have k2 := mul_lt_mul_of_pos_right h2 hy
  have k3 : y.num * c.den * a.den < c.num * y.den * a.den := by nlinarith
  exact lt_of_mul_lt_mul_right k3 (le_of_lt ha)

/-- `std::max` of two doubles is below `c` exactly when both are. -/
theorem rmax_lt_iff {a y cR : R} (ha : 0 < a.den) (hy : 0 < y.den) (hc : 0 < cR.den) :
    R.lt (rmax a y) cR = true ↔ (R.lt a cR = true ∧ R.lt y cR = true) := by
  unfold rmax
  by_cases h : R.lt a y = true
  · rw [if_pos h]
    exact ⟨fun hyc => ⟨rlt_trans ha hy hc h hyc, hyc⟩, fun h2 => h2.2⟩
  · rw [if_neg h]
    exact ⟨fun hac => ⟨hac, rle_lt_trans ha hy hc h hac⟩, fun h2 => h2.1⟩

/-- The denominator of `rmax` is one of the operands' denominators. -/
theorem rmax_den_pos {a y : R} (ha : 0 < a.den) (hy : 0 < y.den) : 0 < (rmax a y).den := by
  unfold rmax; split <;> assumption

/-- A `valarray::max` fold is below `c` exactly when every element is
(positive denominators throughout). -/
theorem foldl_rmax_lt (cR : R) (hc : 0 < cR.den) : ∀ (l : List R) (a : R), 0 < a.den →
    (∀ x ∈ l, 0 < x.den) →
    (R.lt (l.foldl rmax a) cR = true ↔ (R.lt a cR = true ∧ ∀ x ∈ l, R.lt x cR = true)) := by
  intro l; induction l with
  | nil => intro a ha _; simp
  | cons y t ih =>
    intro a ha hl
    have hy : 0 < y.den := hl y (by simp)
    have ht : ∀ x ∈ t, 0 < x.den := fun x hx => hl x (by simp [hx])
    rw [List.foldl_cons, ih (rmax a y) (rmax_den_pos ha hy) ht,
      rmax_lt_iff ha hy hc]
    simp only [List.forall_mem_cons]
    tauto

/-- Pointwise subtraction via `zip`. -/
theorem zipWith_sub_eq_map_zip : ∀ xs ys : List R,
    List.zipWith R.sub xs ys = (xs.zip ys).map fun p => R.sub p.1 p.2 := by
  intro xs; induction xs with
  | nil => intro ys; simp
  | cons x xs ih =>
    intro ys; cases ys with
    | nil => simp
    | cons y ys => simp [ih]

/-- Membership in the absolute-difference list of `atom_eq`'s array
case. -/
theorem mem_absdiff_iff {xs ys : List R} {d : R} :
    d ∈ (List.zipWith R.sub xs ys).map R.abs ↔
      ∃ p ∈ xs.zip ys, R.abs (R.sub p.1 p.2) = d := by
  rw [zipWith_sub_eq_map_zip, List.map_map]
  simp [Function.comp]

/-- `atom_eq` on two arrays, reduced to its length test and tolerance
test. -/
theorem atom_eq_arr_reduce (xs ys : List R) :
    atom_eq (.arr xs) (.arr ys)
      = (xs.length == ys.length &&
        R.lt (valarrayMax ((xs.zipWith R.sub ys).map R.abs)) eps) := by
  simp [atom_eq, is_nil, tagOf]

/-- Claim C9 amended: two arrays are `atom_eq`-equal (and `==` returns
1.0 for them) exactly when they have the same length and every pair of
corresponding elements differs by strictly less than `eps = 1e-6f`
(which is the float nearest 10^-6 and strictly below it, so "strictly
less than 1e-6" in the claim must read the float literal of the source,
not the exact decimal 10^-6; the counterexample above separates the
two).  Arrays with positive denominators only; the empty-vs-empty
comparison is excluded because the C++ `max()` of an empty valarray is
undefined behaviour. -/
theorem c9_eq_amended (xs ys : List R)
    (hx : ∀ x ∈ xs, 0 < x.den) (hy : ∀ y ∈ ys, 0 < y.den)
    (hne : ¬(xs = [] ∧ ys = [])) :
    (atom_eq (.arr xs) (.arr ys) = true ↔
      (xs.length = ys.length ∧ ∀ p ∈ xs.zip ys, R.lt (R.abs (R.sub p.1 p.2)) eps = true)) ∧
    fn_eq [.arr xs, .arr ys]
      = .ok (.arr [if atom_eq (.arr xs) (.arr ys) then ⟨1, 1⟩ else ⟨0, 1⟩]) ∧
    atom_eq (.arr [⟨1, 1⟩]) (.arr [⟨10000001, 10000000⟩]) = true ∧
    atom_eq (.arr [⟨1, 1⟩]) (.arr [⟨1001, 1000⟩]) = false := by
  refine ⟨?_, rfl, rfl, rfl⟩
  rw [atom_eq_arr_reduce]
  by_cases hlen : xs.length = ys.length
  · cases xs with
    | nil =>
      exact absurd ⟨rfl, List.length_eq_zero.mp hlen.symm⟩ hne
    | cons x0 xs' =>
      cases ys with
      | nil => simp at hlen
      | cons y0 ys' =>
        have hzip : ((x0 :: xs').zip (y0 :: ys')) = (x0, y0) :: xs'.zip ys' := rfl
        rw [hzip]
        rw [show (List.zipWith R.sub (x0 :: xs') (y0 :: ys')).map R.abs
            = R.abs (R.sub x0 y0) :: (List.zipWith R.sub xs' ys').map R.abs from rfl]
        rw [show valarrayMax
              (R.abs (R.sub x0 y0) :: (List.zipWith R.sub xs' ys').map R.abs)
            = ((List.zipWith R.sub xs' ys').map R.abs).foldl rmax
              (R.abs (R.sub x0 y0)) from rfl]
        have hdens : ∀ d ∈ (List.zipWith R.sub xs' ys').map R.abs, 0 < d.den := by
          intro d hd
          obtain ⟨p, hp, rfl⟩ := mem_absdiff_iff.mp hd
          have hp1 : 0 < p.1.den := hx p.1 (List.mem_cons_of_mem _ (List.of_mem_zip hp).1)
          have hp2 : 0 < p.2.den := hy p.2 (List.mem_cons_of_mem _ (List.of_mem_zip hp).2)
          simp only [R.abs, R.sub]
          positivity
        have hd0 : 0 < (R.abs (R.sub x0 y0)).den := by
          have h1 : 0 < x0.den := hx x0 (List.mem_cons_self _ _)
          have h2 : 0 < y0.den := hy y0 (List.mem_cons_self _ _)
          simp only [R.abs, R.sub]
          positivity
        have heps : 0 < eps.den := by norm_num [eps]
        simp only [Bool.and_eq_true, beq_iff_eq]
        rw [foldl_rmax_lt eps heps _ _ hd0 hdens]
        constructor
        · rintro ⟨hl, h2, h3⟩
          refine ⟨hl, ?_⟩
          intro p hp
          rcases List.mem_cons.mp hp with hp1 | hp2
          · rw [hp1]; exact h2
          · exact h3 _ (mem_absdiff_iff.mpr ⟨p, hp2, rfl⟩)
        · rintro ⟨hl, hall⟩
          refine ⟨hl, hall (x0, y0) (List.mem_cons_self _ _), ?_⟩
          intro d hd
          obtain ⟨p, hp, rfl⟩ := mem_absdiff_iff.mp hd
          exact hall p (List.mem_cons_of_mem _ hp)
  · constructor
    · intro h
      simp only [Bool.and_eq_true, beq_iff_eq] at h
      exact absurd h.1 hlen
    · rintro ⟨h, _⟩; exact absurd h hlen

/-- Witness for C9: the iff instantiated at two length-1 integer
arrays. -/
theorem c9_eq_witness :
    (∀ x ∈ [(⟨1, 1⟩ : R)], 0 < x.den) ∧
    (atom_eq (.arr [⟨1, 1⟩]) (.arr [⟨2, 1⟩]) = true ↔
      (([(⟨1, 1⟩ : R)]).length = ([(⟨2, 1⟩ : R)]).length ∧
        ∀ p ∈ ([(⟨1, 1⟩ : R)]).zip [(⟨2, 1⟩ : R)],
          R.lt (R.abs (R.sub p.1 p.2)) eps = true)) :=
  ⟨by decide, (c9_eq_amended [⟨1, 1⟩] [⟨2, 1⟩] (by decide) (by decide) (by decide)).1⟩

/-- Claim C10: every call of `lreplace` violating one of the guard
conditions — negative start, negative length, stride below 1, window
past the end of the destination, or truncated `len / stride` exceeding
the source length — returns nil, leaves the destination list unchanged,
and raises no error (the result is an `ok`, not an `error`). -/
theorem c10_lreplace_guard (dst src : List Value) (i len stride : Int)
    (h : i < 0 ∨ len < 0 ∨ stride < 1 ∨ (dst.length : Int) < i + len ∨
      (src.length : Int) < len.tdiv stride) :
    fn_lreplace [.list dst, .list src, .arr [R.ofInt i], .arr [R.ofInt len],
        .arr [R.ofInt stride]]
      = .ok (.list [], dst) := by
  have hred : fn_lreplace [.list dst, .list src, .arr [R.ofInt i], .arr [R.ofInt len],
      .arr [R.ofInt stride]]
      = (if i < 0 ∨ len < 0 ∨ stride < 1 ∨ (dst.length : Int) < i + len ∨
          (src.length : Int) < len.tdiv stride then
        .ok (.list [], dst)
      else do
        let l2 ← lreplaceLoop (len.toNat + 1) dst src i (i + len) stride 0
        .ok (.list src, l2)) := by
    rw [show fn_lreplace [.list dst, .list src, .arr [R.ofInt i], .arr [R.ofInt len],
        .arr [R.ofInt stride]]
        = (if R.toInt (R.ofInt i) < 0 ∨ R.toInt (R.ofInt len) < 0 ∨
            R.toInt (R.ofInt stride) < 1 ∨
            (dst.length : Int) < R.toInt (R.ofInt i) + R.toInt (R.ofInt len) ∨
            (src.length : Int) < (R.toInt (R.ofInt len)).tdiv (R.toInt (R.ofInt stride)) then
          .ok (.list [], dst)
        else do
          let l2 ← lreplaceLoop ((R.toInt (R.ofInt len)).toNat + 1) dst src
            (R.toInt (R.ofInt i)) (R.toInt (R.ofInt i) + R.toInt (R.ofInt len))
            (R.toInt (R.ofInt stride)) 0
          .ok (.list src, l2)) from rfl]
    simp only [R.toInt_ofInt]
  rw [hred, if_pos h]

/-- Witness for C10: a window of length 5 does not fit a one-element
destination; the destination survives unchanged and nil is returned. -/
theorem c10_lreplace_guard_witness :
    fn_lreplace [.list [num 1], .list [], .arr [R.ofInt 0], .arr [R.ofInt 5],
        .arr [R.ofInt 1]]
      = .ok (.list [], [num 1]) :=
  c10_lreplace_guard [num 1] [] 0 5 1 (by decide)

/-! ## Round-trip machinery for the amended claim C3 -/

/-- Every list of values occupies size at least 1. -/
theorem one_le_vsizeL : ∀ xs : List Value, 1 ≤ vsizeL xs := by
  intro xs
  cases xs with
  | nil => simp [vsizeL]
  | cons x r => simp only [vsizeL]; omega

/-- Every value occupies size at least 2. -/
theorem two_le_vsize : ∀ v : Value, 2 ≤ vsize v := by
  intro v
  cases v with
  | list xs => have := one_le_vsizeL xs; simp only [vsize]; omega
  | sym s => simp [vsize]
  | str s => simp [vsize]
  | arr a => simp [vsize]
  | lam v b e => simp only [vsize]; omega
  | mac v b e => simp only [vsize]; omega
  | op i n m => simp [vsize]

/-- The size of a list bounds its length from above (shifted by one). -/
theorem length_lt_vsizeL : ∀ xs : List Value, xs.length + 1 ≤ vsizeL xs := by
  intro xs; induction xs with
  | nil => simp [vsizeL]
  | cons c cs ih =>
    have := two_le_vsize c
    simp only [vsizeL, List.length_cons]
    omega

/-- A member of a list is smaller than the list. -/
theorem vsize_lt_vsizeL : ∀ (xs : List Value) (c : Value), c ∈ xs → vsize c < vsizeL xs := by
  intro xs; induction xs with
  | nil => intro c hc; cases hc
  | cons x cs ih =>
    intro c hc
    rcases List.mem_cons.mp hc with rfl | hc2
    · simp only [vsizeL]; omega
    · have := ih c hc2
      simp only [vsizeL]; omega

/-- `readableL` is the conjunction of `readable` over the members. -/
theorem readableL_forall : ∀ xs : List Value,
    readableL xs = true ↔ ∀ c ∈ xs, readable c = true := by
  intro xs; induction xs with
  | nil => simp [readableL]
  | cons x cs ih =>
    simp [readableL, ih, List.forall_mem_cons]

/-- A digit-free character list has no digit prefix. -/
theorem takeWhile_digit_nil (l : List Char) (h : ∀ c ∈ l, c.isDigit = false) :
    l.takeWhile Char.isDigit = [] := by
  cases l with
  | nil => rfl
  | cons c r => simp [List.takeWhile_cons, h c (List.mem_cons_self _ _)]

/-- A digit-free character list survives `dropWhile isDigit` whole. -/
theorem dropWhile_digit_id (l : List Char) (h : ∀ c ∈ l, c.isDigit = false) :
    l.dropWhile Char.isDigit = l := by
  cases l with
  | nil => rfl
  | cons c r => simp [List.dropWhile_cons, h c (List.mem_cons_self _ _)]

/-- A lexeme made of `symFree` characters contains no digits. -/
theorem symFree_no_digit {s : List Char} (h : s.all symFree = true) :
    ∀ c ∈ s, c.isDigit = false := by
  intro c hc
  have := (List.all_eq_true.mp h) c hc
  simp only [symFree, Bool.and_eq_true, Bool.not_eq_true'] at this
  exact this.2

/-- `dropSign` keeps a sublist: every member of the result is a member of
the input. -/
theorem dropSign_subset (l : List Char) : ∀ c ∈ dropSign l, c ∈ l := by
  intro c hc
  cases l with
  | nil => simpa [dropSign] using hc
  | cons a r =>
    by_cases ha1 : a = '+'
    · subst ha1; exact List.mem_cons_of_mem _ (by simpa [dropSign] using hc)
    · by_cases ha2 : a = '-'
      · subst ha2; exact List.mem_cons_of_mem _ (by simpa [dropSign] using hc)
      · have : dropSign (a :: r) = a :: r := by
          cases a <;> simp_all [dropSign]
        rw [this] at hc; exact hc

/-- A digit-free token is not a number: both grammar arms of `is_number`
require at least one digit. -/
theorem no_digit_not_number {s : List Char} (h : ∀ c ∈ s, c.isDigit = false) :
    is_number s = false := by
  have hds : ∀ c ∈ dropSign s, c.isDigit = false := fun c hc => h c (dropSign_subset s c hc)
  simp only [is_number]
  rw [takeWhile_digit_nil _ hds, dropWhile_digit_id _ hds]
  split
  · rename_i r2 heq
    have hr : ∀ x ∈ r2, x.isDigit = false := by
      intro x hx
      have hx2 : x ∈ dropSign s := by
        rw [heq]; exact List.mem_cons_of_mem _ hx
      exact hds x hx2
    simp [takeWhile_digit_nil _ hr]
  · simp

/-- A round-trippable symbol lexeme is not a number. -/
theorem symOk_not_number {s : List Char} (h : symOk s = true) : is_number s = false := by
  have h2 : s.all symFree = true := by
    simp only [symOk, Bool.and_eq_true] at h
    exact h.2
  exact no_digit_not_number (symFree_no_digit h2)

/-- A round-trippable symbol lexeme is nonempty. -/
theorem symOk_ne_nil {s : List Char} (h : symOk s = true) : s ≠ [] := by
  intro hs; subst hs; simp [symOk] at h

/-- A round-trippable symbol lexeme is not recognised as a string
literal (its characters exclude the quote). -/
theorem symOk_not_string {s : List Char} (h : symOk s = true) : is_string s = false := by
  cases s with
  | nil => rfl
  | cons c r =>
    cases r with
    | nil => rfl
    | cons d r2 =>
      have hc : symFree c = true := by
        simp only [symOk, List.all_cons, Bool.and_eq_true] at h
        exact h.2.1
      have hq : c ≠ '"' := by
        intro hcq
        subst hcq
        exact absurd hc (by decide)
      simp [is_string, hq]

/-- A quote-headed token is never numeric. -/
theorem quote_not_number (l : List Char) : is_number ('"' :: l) = false := rfl

/-- `symFree` characters pass straight through the tokenising loop into
the accumulator. -/
theorem nextLoop_append_sym : ∀ s : List Char, (∀ c ∈ s, symFree c = true) →
    ∀ rest ln acc, nextLoop (s ++ rest) ln acc false = nextLoop rest ln (acc ++ s) false := by
  intro s
  induction s with
  | nil => intro _ rest ln acc; simp
  | cons c s' ih =>
    intro hall rest ln acc
    have hc : symFree c = true := hall c (List.mem_cons_self _ _)
    have h1 : ¬ (c = ';') := by
      intro hcc; subst hcc; exact absurd hc (by decide)
    have h2 : ¬ (c = '(' ∨ c = ')' ∨ c = '\'') := by
      rintro (rfl | rfl | rfl) <;> exact absurd hc (by decide)
    have h3 : ¬ (c = '\t' ∨ c = '\n' ∨ c = '\r' ∨ c = ' ') := by
      rintro (rfl | rfl | rfl | rfl) <;> exact absurd hc (by decide)
    have h4 : ¬ (c = '"') := by
      intro hcc; subst hcc; exact absurd hc (by decide)
    have h5 : 0 < c.toNat ∧ c.toNat ≤ 127 := by
      have hc2 := hc
      simp only [symFree, Bool.and_eq_true, Bool.not_eq_true',
        decide_eq_true_eq, decide_eq_false_iff_not] at hc2
      exact hc2.1.2
    have hall' : ∀ x ∈ s', symFree x = true := fun x hx => hall x (List.mem_cons_of_mem _ hx)
    show nextLoop (c :: (s' ++ rest)) ln acc false = _
    simp only [nextLoop]
    rw [if_neg h1, if_neg h2, if_neg h3, if_neg h4, if_pos h5, ih hall' rest ln (acc ++ [c]),
      List.append_assoc]
    rfl

/-- The string subloop consumes a clean (escape- and quote-free) body up
to the closing quote, appending it to the accumulator and counting its
newlines. -/
theorem lexString_clean : ∀ s : List Char, (∀ c ∈ s, strFree c = true) →
    ∀ rest c0 acc ln, lexString (s ++ '"' :: rest) c0 acc ln
      = (acc ++ s, ⟨rest, false⟩, ln + s.count '\n') := by
  intro s
  induction s with
  | nil =>
    intro _ rest c0 acc ln
    rw [List.nil_append, lexString.eq_def]
    simp
  | cons c s' ih =>
    intro hall rest c0 acc ln
    have hc : strFree c = true := hall c (List.mem_cons_self _ _)
    have hq : ¬ (c = '"') := by
      intro hcc; subst hcc; exact absurd hc (by decide)
    have hb : ¬ (c = '\\') := by
      intro hcc; subst hcc; exact absurd hc (by decide)
    have hall' : ∀ x ∈ s', strFree x = true := fun x hx => hall x (List.mem_cons_of_mem _ hx)
    show lexString (c :: (s' ++ '"' :: rest)) c0 acc ln = _
    rw [lexString.eq_def]
    dsimp only
    rw [if_neg hq, if_neg hb, ih hall' rest c (acc ++ [c]) _]
    simp only [Prod.mk.injEq]
    refine ⟨by simp, by simp, ?_⟩
    by_cases hcn : c = '\n'
    · subst hcn
      simp [List.count_cons]
      omega
    · simp [List.count_cons, hcn]

/-- A closing paren with a nonempty accumulator ends the token and is put
back on the stream. -/
theorem nextLoop_close (t : List Char) (ln : Nat) (s : List Char) (hs : s ≠ []) :
    nextLoop (')' :: t) ln s false = (s, ⟨')' :: t, false⟩, ln) := by
  have hlen : s.length ≠ 0 := by simpa using hs
  rw [show nextLoop (')' :: t) ln s false
      = (if s.length ≠ 0 then (s, (⟨')' :: t, false⟩ : IStream), ln)
         else ([')'], (⟨t, false⟩ : IStream), ln)) from rfl,
    if_pos hlen]

/-- A space with a nonempty accumulator ends the token and is consumed. -/
theorem nextLoop_wspace (t : List Char) (ln : Nat) (s : List Char) (hs : s ≠ []) :
    nextLoop (' ' :: t) ln s false = (s, ⟨t, false⟩, ln) := by
  have hlen : s.length ≠ 0 := by simpa using hs
  rw [show nextLoop (' ' :: t) ln s false
      = (if s.length ≠ 0 then (s, (⟨t, false⟩ : IStream), ln)
         else nextLoop t ln s false) from rfl,
    if_pos hlen]

/-- Reading a printed symbol from a separated context gives back the
symbol and leaves the stream in the canonical `afterStream` state. -/
theorem read_print_sym (s : List Char) (h : symOk s = true) (f : Nat)
    (rest : List Char) (hsep : Sep rest) (ln : Nat) :
    read (f + 1) ⟨s ++ rest, false⟩ ln = (.sym s, afterStream (.sym s) rest, ln) := by
  have hne : s ≠ [] := symOk_ne_nil h
  have hall : ∀ c ∈ s, symFree c = true := by
    simp only [symOk, Bool.and_eq_true, List.all_eq_true] at h
    exact h.2
  have hnext : next ⟨s ++ rest, false⟩ ln [] = (s, afterStream (.sym s) rest, ln) := by
    show nextLoop (s ++ rest) ln [] false = _
    rw [nextLoop_append_sym s hall rest ln []]
    rcases hsep with rfl | ⟨t, rfl⟩ | ⟨t, rfl⟩
    · rfl
    · exact nextLoop_close t ln s hne
    · exact nextLoop_wspace t ln s hne
  have hp : ¬ (s = ['(']) := by
    intro hq; rw [hq] at h; exact absurd h (by decide)
  have hq : ¬ (s = ['\'']) := by
    intro hq2; rw [hq2] at h; exact absurd h (by decide)
  have hnum : ¬ (is_number s = true) := by
    rw [symOk_not_number h]; simp
  simp only [read]
  rw [hnext]
  rw [if_neg hne, if_neg hp, if_neg hq, if_neg hnum]
  simp [mkAtom, symOk_not_string h]

/-- Reading a printed string literal gives back the string atom, consumes
the closing quote and counts the newlines of the body. -/
theorem read_print_str (s : List Char) (h : strOk s = true) (f : Nat)
    (rest : List Char) (ln : Nat) :
    read (f + 1) ⟨('"' :: s ++ ['"']) ++ rest, false⟩ ln
      = (.str s, ⟨rest, false⟩, ln + s.count '\n') := by
  have hne : s ≠ [] := by
    intro hq; rw [hq] at h; exact absurd h (by decide)
  have hall : ∀ c ∈ s, strFree c = true := by
    simp only [strOk, Bool.and_eq_true, List.all_eq_true] at h
    exact h.1.2
  obtain ⟨c1, s', rfl⟩ : ∃ c1 s', s = c1 :: s' := by
    cases s with
    | nil => exact absurd rfl hne
    | cons a b => exact ⟨a, b, rfl⟩
  have hstream : ('"' :: (c1 :: s') ++ ['"']) ++ rest = '"' :: ((c1 :: s') ++ '"' :: rest) := by
    simp
  rw [hstream]
  have hnext : next ⟨'"' :: ((c1 :: s') ++ '"' :: rest), false⟩ ln []
      = ('"' :: (c1 :: s'), ⟨rest, false⟩, ln + (c1 :: s').count '\n') := by
    show nextLoop ('"' :: ((c1 :: s') ++ '"' :: rest)) ln [] false = _
    rw [show nextLoop ('"' :: ((c1 :: s') ++ '"' :: rest)) ln [] false
        = lexString ((c1 :: s') ++ '"' :: rest) '"' ['"'] ln from rfl,
      lexString_clean (c1 :: s') hall rest '"' ['"'] ln]
    rfl
  have h1 : ('"' :: c1 :: s' : List Char) ≠ [] := by simp
  have h2 : ('"' :: c1 :: s' : List Char) ≠ ['('] := by simp
  have h3 : ('"' :: c1 :: s' : List Char) ≠ ['\''] := by simp
  have h4 : ¬ (is_number ('"' :: c1 :: s') = true) := by
    rw [quote_not_number]; simp
  simp only [read]
  rw [hnext]
  rw [if_neg h1, if_neg h2, if_neg h3, if_neg h4]
  simp [mkAtom, is_string]

/-- Reading a lone closing paren yields a symbol token `)` (which the
list loop interprets as the end of the list). -/
theorem read_rparen (f : Nat) (rest : List Char) (ln : Nat) :
    read (f + 1) ⟨')' :: rest, false⟩ ln = (.sym [')'], ⟨rest, false⟩, ln) := rfl

/-- A leading space is skipped by the tokeniser: reading from a
space-headed stream equals reading from its tail. -/
theorem read_space (f : Nat) (b : List Char) (ln : Nat) :
    read (f + 1) ⟨' ' :: b, false⟩ ln = read (f + 1) ⟨b, false⟩ ln := rfl

/-- One unfolding of the list-reading loop on a live stream, with the
recursive call written out. -/
theorem readList_step (rd : IStream → Nat → Value × IStream × Nat) (k : Nat)
    (st : IStream) (ln : Nat) (acc : List Value) (h : st.flag = false) :
    readList rd (k + 1) st ln acc
      = (if (rd st ln).1.lexeme = [')']
         then (.list acc, (rd st ln).2.1, (rd st ln).2.2)
         else readList rd k (rd st ln).2.1 (rd st ln).2.2 (acc ++ [(rd st ln).1])) := by
  cases st with
  | mk buf fl =>
    have h2 : fl = false := h
    subst h2
    rfl

/-- The list loop at a closing paren returns the accumulated children. -/
theorem readList_close (f k : Nat) (rest : List Char) (ln : Nat) (acc : List Value) :
    readList (read (f + 1)) (k + 1) ⟨')' :: rest, false⟩ ln acc
      = (.list acc, ⟨rest, false⟩, ln) := rfl

/-- The list loop skips a leading space in the stream. -/
theorem readList_space (f k : Nat) (T : List Char) (ln : Nat) (acc : List Value) :
    readList (read (f + 1)) (k + 1) ⟨' ' :: T, false⟩ ln acc
      = readList (read (f + 1)) (k + 1) ⟨T, false⟩ ln acc := by
  rw [readList_step _ _ _ _ _ rfl, readList_step (read (f + 1)) k ⟨T, false⟩ ln acc rfl,
    read_space f T ln]

/-- After a printed value, a closing paren stays on the stream whatever
the value was. -/
theorem afterStream_rparen (v : Value) (t : List Char) :
    afterStream v (')' :: t) = ⟨')' :: t, false⟩ := by
  cases v <;> rfl

/-- After a printed value, a separating space is either consumed (symbol)
or left on the stream (every other value). -/
theorem afterStream_space (v : Value) (t : List Char) :
    afterStream v (' ' :: t) = ⟨t, false⟩ ∨ afterStream v (' ' :: t) = ⟨' ' :: t, false⟩ := by
  cases v <;> first | exact Or.inl rfl | exact Or.inr rfl

/-- The lexeme of a readable value is never the list-closing token. -/
theorem readable_lexeme_ne {v : Value} (h : readable v = true) : v.lexeme ≠ [')'] := by
  cases v with
  | sym s =>
    intro hs
    simp only [Value.lexeme] at hs
    subst hs
    simp [readable, symOk, symFree] at h
  | str s =>
    intro hs
    simp only [Value.lexeme] at hs
    subst hs
    simp [readable, strOk] at h
  | list xs => simp [Value.lexeme]
  | arr xs => simp [readable] at h
  | lam v b e => simp [readable] at h
  | mac v b e => simp [readable] at h
  | op i nm m => simp [readable] at h

/-- The list-reading loop inverts the child-printing loop: given that each
child round-trips from any separated context, the printed children
followed by a closing paren read back as exactly those children appended
to the accumulator, with the paren consumed. -/
theorem readList_print (f : Nat) (vs : List Value)
    (hread : ∀ c ∈ vs, readable c = true)
    (hch : ∀ c ∈ vs, ∀ rest2 ln2, Sep rest2 → ∃ ln3,
        read (f + 1) ⟨print true c ++ rest2, false⟩ ln2 = (c, afterStream c rest2, ln3)) :
    ∀ k, vs.length + 1 ≤ k → ∀ rest ln acc,
      ∃ ln2, readList (read (f + 1)) k ⟨printL true vs ++ ')' :: rest, false⟩ ln acc
        = (.list (acc ++ vs), ⟨rest, false⟩, ln2) := by
  induction vs with
  | nil =>
    intro k hk rest ln acc
    obtain ⟨k', rfl⟩ : ∃ k', k = k' + 1 := ⟨k - 1, by omega⟩
    refine ⟨ln, ?_⟩
    simpa using readList_close f k' rest ln acc
  | cons c vs' ih =>
    intro k hk rest ln acc
    obtain ⟨k', rfl⟩ : ∃ k', k = k' + 1 := ⟨k - 1, by omega⟩
    have hc : readable c = true := hread c (List.mem_cons_self _ _)
    have hlex : c.lexeme ≠ [')'] := readable_lexeme_ne hc
    cases vs' with
    | nil =>
      obtain ⟨ln2, hr⟩ := hch c (List.mem_cons_self _ _) (')' :: rest) ln
        (Or.inr (Or.inl ⟨rest, rfl⟩))
      obtain ⟨k'', rfl⟩ : ∃ k'', k' = k'' + 1 := ⟨k' - 1, by simp at hk; omega⟩
      refine ⟨ln2, ?_⟩
      rw [show printL true [c] ++ ')' :: rest = print true c ++ ')' :: rest from rfl,
        readList_step _ _ _ _ _ rfl, hr]
      dsimp only
      rw [if_neg hlex, afterStream_rparen]
      simpa using readList_close f k'' rest ln2 (acc ++ [c])
    | cons c2 vs'' =>
      obtain ⟨ln2, hr⟩ := hch c (List.mem_cons_self _ _)
        (' ' :: (printL true (c2 :: vs'') ++ ')' :: rest)) ln
        (Or.inr (Or.inr ⟨_, rfl⟩))
      have hread' : ∀ x ∈ c2 :: vs'', readable x = true :=
        fun x hx => hread x (List.mem_cons_of_mem _ hx)
      have hch' : ∀ x ∈ c2 :: vs'', ∀ rest2 ln2, Sep rest2 → ∃ ln3,
          read (f + 1) ⟨print true x ++ rest2, false⟩ ln2 = (x, afterStream x rest2, ln3) :=
        fun x hx => hch x (List.mem_cons_of_mem _ hx)
      have hk' : (c2 :: vs'').length + 1 ≤ k' := by
        simp only [List.length_cons] at hk ⊢; omega
      obtain ⟨k'', rfl⟩ : ∃ k'', k' = k'' + 1 := ⟨k' - 1, by simp at hk; omega⟩
      obtain ⟨ln3, hIH⟩ := ih hread' hch' (k'' + 1) hk' rest ln2 (acc ++ [c])
      refine ⟨ln3, ?_⟩
      rw [show printL true (c :: c2 :: vs'') ++ ')' :: rest
          = print true c ++ (' ' :: (printL true (c2 :: vs'') ++ ')' :: rest)) from by
            rw [show printL true (c :: c2 :: vs'')
                = print true c ++ ' ' :: printL true (c2 :: vs'') from rfl,
              List.append_assoc, List.cons_append],
        readList_step _ _ _ _ _ rfl, hr]
      dsimp only
      rw [if_neg hlex]
      rcases afterStream_space c (printL true (c2 :: vs'') ++ ')' :: rest) with he | he
      · rw [he, hIH, List.append_assoc, List.singleton_append]
      · rw [he, readList_space f k'' (printL true (c2 :: vs'') ++ ')' :: rest) ln2 (acc ++ [c]),
          hIH, List.append_assoc, List.singleton_append]

/-- One value round-trips through print and read from any separated
context (main induction on the size of the value). -/
theorem read_print : ∀ n : Nat, ∀ v : Value, vsize v ≤ n → readable v = true →
    ∀ f : Nat, vsize v ≤ f + 1 → ∀ rest : List Char, Sep rest → ∀ ln : Nat,
      ∃ ln2, read (f + 1) ⟨print true v ++ rest, false⟩ ln = (v, afterStream v rest, ln2) := by
  intro n
  induction n using Nat.strong_induction_on with
  | _ n ih =>
    intro v hn hr f hf rest hsep ln
    cases v with
    | sym s =>
      have hs : symOk s = true := by simpa [readable] using hr
      exact ⟨ln, read_print_sym s hs f rest hsep ln⟩
    | str s =>
      have hs : strOk s = true := by simpa [readable] using hr
      exact ⟨ln + s.count '\n', read_print_str s hs f rest ln⟩
    | list xs =>
      have hxs : readableL xs = true := by simpa [readable] using hr
      have hxs' : ∀ c ∈ xs, readable c = true := (readableL_forall xs).mp hxs
      have hsz : vsize (Value.list xs) = 1 + vsizeL xs := rfl
      obtain ⟨f', rfl⟩ : ∃ f', f = f' + 1 := by
        have h1 := one_le_vsizeL xs
        refine ⟨f - 1, ?_⟩
        rw [hsz] at hf
        omega
      have hch : ∀ c ∈ xs, ∀ rest2 ln2, Sep rest2 → ∃ ln3,
          read (f' + 1) ⟨print true c ++ rest2, false⟩ ln2 = (c, afterStream c rest2, ln3) := by
        intro c hcmem rest2 ln2 hsep2
        have hmem_sz := vsize_lt_vsizeL xs c hcmem
        have hlt : vsize c < n := by rw [hsz] at hn; omega
        have hle : vsize c ≤ f' + 1 := by rw [hsz] at hf; omega
        exact ih (vsize c) hlt c le_rfl (hxs' c hcmem) f' hle rest2 hsep2 ln2
      have hkk : xs.length + 1 ≤ f' + 1 := by
        have h2 := length_lt_vsizeL xs
        rw [hsz] at hf
        omega
      obtain ⟨ln2, hloop⟩ := readList_print f' xs hxs' hch (f' + 1) hkk rest ln []
      refine ⟨ln2, ?_⟩
      have hstr2 : print true (Value.list xs) ++ rest
          = '(' :: (printL true xs ++ ')' :: rest) := by
        rw [show print true (Value.list xs) = '(' :: printL true xs ++ [')'] from rfl]
        simp
      rw [hstr2]
      rw [show read (f' + 1 + 1) ⟨'(' :: (printL true xs ++ ')' :: rest), false⟩ ln
          = readList (read (f' + 1)) (f' + 1) ⟨printL true xs ++ ')' :: rest, false⟩ ln []
          from rfl, hloop]
      rfl
    | arr a => simp [readable] at hr
    | lam v b e => simp [readable] at hr
    | mac v b e => simp [readable] at hr
    | op i nm m => simp [readable] at hr

/-- `atom_eq_list` is reflexive on lists whose members all satisfy
reflexivity. -/
theorem atom_eq_list_refl_of : ∀ ys : List Value,
    (∀ c ∈ ys, atom_eq c c = true) → atom_eq_list ys ys = true := by
  intro ys
  induction ys with
  | nil => intro _; rfl
  | cons y ys' ih =>
    intro h
    have h1 : atom_eq y y = true := h y (List.mem_cons_self _ _)
    have h2 : atom_eq_list ys' ys' = true := ih fun c hc => h c (List.mem_cons_of_mem _ hc)
    simp [atom_eq_list, h1, h2]

/-- `atom_eq` is reflexive on the readable fragment (symbols and strings
compare by lexeme, nil equals nil, nonempty lists compare childwise). -/
theorem atom_eq_refl_readable : ∀ n : Nat, ∀ v : Value, vsize v ≤ n →
    readable v = true → atom_eq v v = true := by
  intro n
  induction n using Nat.strong_induction_on with
  | _ n ih =>
    intro v hn hr
    cases v with
    | sym s => simp [atom_eq, is_nil, tagOf]
    | str s => simp [atom_eq, is_nil, tagOf]
    | list xs =>
      cases xs with
      | nil => rfl
      | cons x xs' =>
        have hxs' : ∀ c ∈ x :: xs', readable c = true :=
          (readableL_forall (x :: xs')).mp (by simpa [readable] using hr)
        have hch : ∀ c ∈ x :: xs', atom_eq c c = true := by
          intro c hcmem
          have hmem_sz := vsize_lt_vsizeL (x :: xs') c hcmem
          have hsz : vsize (Value.list (x :: xs')) = 1 + vsizeL (x :: xs') := rfl
          have hlt : vsize c < n := by rw [hsz] at hn; omega
          exact ih (vsize c) hlt c le_rfl (hxs' c hcmem)
        have hlist := atom_eq_list_refl_of (x :: xs') hch
        simp [atom_eq, is_nil, tagOf, hlist]
    | arr a => simp [readable] at hr
    | lam v b e => simp [readable] at hr
    | mac v b e => simp [readable] at hr
    | op i nm m => simp [readable] at hr

/-- Claim C3 counterexample: three readable values that do not survive a
print/read round trip.  An array prints as `[1]` plus newline and reads
back as the symbol `[1]`; a string containing a double quote prints with
that quote unescaped, so reading stops at it and returns the truncated
string; the symbol `1` prints as `1` and reads back as a numeric array.
In each case the re-read value is not `atom_eq` to the original. -/
theorem c3_counterexample :
    ((read 10 ⟨print true (.arr [R.ofInt 1]), false⟩ 0).1 = .sym (cs "[1]") ∧
      atom_eq (read 10 ⟨print true (.arr [R.ofInt 1]), false⟩ 0).1 (.arr [R.ofInt 1]) = false) ∧
    ((read 10 ⟨print true (.str (cs "a\"b")), false⟩ 0).1 = .str (cs "a") ∧
      atom_eq (read 10 ⟨print true (.str (cs "a\"b")), false⟩ 0).1 (.str (cs "a\"b")) = false) ∧
    ((read 10 ⟨print true (.sym (cs "1")), false⟩ 0).1 = .arr [R.ofInt 1] ∧
      atom_eq (read 10 ⟨print true (.sym (cs "1")), false⟩ 0).1 (.sym (cs "1")) = false) := by
  exact ⟨⟨rfl, rfl⟩, ⟨rfl, rfl⟩, ⟨rfl, rfl⟩⟩

/-- Claim C3 (amended): restricted to values built from lists, symbols
and strings whose lexemes re-tokenise to themselves (no delimiters,
quotes, backslashes or digit-only heads), printing in write mode and
reading back with enough fuel returns the value itself, which is in
particular `atom_eq` to the original.  Arrays, strings containing quotes,
and number-shaped symbols are excluded: they do not round-trip
(`c3_counterexample`). -/
theorem c3_roundtrip_amended (v : Value) (fuel : Nat)
    (h1 : readable v = true) (h2 : vsize v ≤ fuel) :
    (read fuel ⟨print true v, false⟩ 0).1 = v ∧
    atom_eq (read fuel ⟨print true v, false⟩ 0).1 v = true := by
  obtain ⟨f, rfl⟩ : ∃ f, fuel = f + 1 := by
    have := two_le_vsize v
    exact ⟨fuel - 1, by omega⟩
  obtain ⟨ln2, heq⟩ := read_print (vsize v) v le_rfl h1 f h2 [] (Or.inl rfl) 0
  rw [List.append_nil] at heq
  rw [heq]
  exact ⟨rfl, atom_eq_refl_readable (vsize v) v le_rfl h1⟩

/-- Witness for the amended C3: a three-element list of a symbol, a
string with a space, and nil round-trips with fuel 40. -/
theorem c3_roundtrip_witness :
    readable (.list [.sym (cs "ab"), .str (cs "c d"), .list []]) = true ∧
    vsize (.list [.sym (cs "ab"), .str (cs "c d"), .list []]) ≤ 40 ∧
    ((read 40 ⟨print true (.list [.sym (cs "ab"), .str (cs "c d"), .list []]), false⟩ 0).1
        = .list [.sym (cs "ab"), .str (cs "c d"), .list []] ∧
      atom_eq (read 40 ⟨print true (.list [.sym (cs "ab"), .str (cs "c d"), .list []]), false⟩ 0).1
        (.list [.sym (cs "ab"), .str (cs "c d"), .list []]) = true) :=
  ⟨by decide, by decide,
    c3_roundtrip_amended (.list [.sym (cs "ab"), .str (cs "c d"), .list []]) 40
      (by decide) (by decide)⟩

end Musil
